import Mathlib

/-!
# Naive Bayes spam classifier: embedding of `spam_classifire.c`

Shallow embedding of the vocabulary store (hash table with chaining), the
tokenizer, the trainer, the probability scorer and the model persistence of
`src/spam_classifire.c`, followed by the properties of the specification
that are settled against it.

Conventions of the embedding.

* A C string is the list of its bytes before the terminating NUL; a byte is a
  natural number (`1 .. 255` for a string the program can hold).
* `int` counters are unbounded integers: the embedding does not follow a
  counter past `INT_MAX`.
* `unsigned long` is 64 bits wide and plain `char` is signed (LP64, x86-64);
  only `hash` depends on this.
* A `strcpy` into a fixed-size buffer that does not fit has no defined
  result: the operations that perform one return `none` there.
* `double` values are exact real numbers; a value that is not a real number
  (a division by zero, the logarithm of a non-positive number, and everything
  computed from one) is `none`. Rounding is not followed, nor the underflow of
  `exp` to 0 on the sums of logarithms of long texts: what is proved of a
  probability is proved of its exact value.
* `malloc` is taken to succeed.
-/

namespace SpamClassifier

set_option maxRecDepth 100000

/-! ## Constants and data model (`spam_classifier.h`) -/

/-- Number of buckets of the hash table (`#define TABLE_SIZE 1000`). -/
def TABLE_SIZE : Nat := 1000

/-- Size of the word buffers (`#define MAX_WORD_LENGTH 50`). -/
def MAX_WORD_LENGTH : Nat := 50

/-- Size of the email buffers (`#define MAX_EMAIL_LENGTH 1000`). -/
def MAX_EMAIL_LENGTH : Nat := 1000

/-- The bytes of a string literal (ASCII text). -/
def bytes (s : String) : List Nat := s.toList.map Char.toNat

/-- One node of a bucket chain (`struct HashNode`, the `next` pointer being the
tail of the chain it sits in). -/
structure HashNode where
  word : List Nat
  spam_count : Int
  ham_count : Int
deriving DecidableEq, Repr

/-- The vocabulary (`Vocabulary`): `table i` is the chain hanging off bucket
`i`, read only for `i < TABLE_SIZE`. -/
structure Vocabulary where
  table : Nat → List HashNode
  total_spam_emails : Int
  total_ham_emails : Int
  total_spam_words : Int
  total_ham_words : Int

/-! ## Hashing, initialisation, cleaning -/

/-- Conversion of a `char` to `unsigned long` through `int` (sign extension
for bytes above 127). -/
def charToULong (c : Nat) : Nat := if c < 128 then c else c + (2 ^ 64 - 256)

/-- The djb2 hash of a word reduced modulo `TABLE_SIZE` (`hash`). -/
def hash (word : List Nat) : Nat :=
  (word.foldl (fun h c => (h * 32 + h + charToULong c) % 2 ^ 64) 5381) % TABLE_SIZE

/-- A fresh node with zero counts (`create_hash_node`). -/
def create_hash_node (word : List Nat) : HashNode :=
  { word := word, spam_count := 0, ham_count := 0 }

/-- The empty vocabulary (`init_vocabulary`). -/
def init_vocabulary : Vocabulary :=
  { table := fun _ => [],
    total_spam_emails := 0, total_ham_emails := 0,
    total_spam_words := 0, total_ham_words := 0 }

/-- ASCII letters and digits (`isalnum` in the C locale). -/
def isalnum (c : Nat) : Bool :=
  (48 ≤ c && c ≤ 57) || (65 ≤ c && c ≤ 90) || (97 ≤ c && c ≤ 122)

/-- ASCII lowercase (`tolower` in the C locale). -/
def tolower (c : Nat) : Nat := if 65 ≤ c ∧ c ≤ 90 then c + 32 else c

/-- Keep the alphanumeric characters, lowercased, in order (`clean_word`). -/
def clean_word : List Nat → List Nat
  | [] => []
  | c :: cs => if isalnum c then tolower c :: clean_word cs else clean_word cs

/-! ## String primitives -/

/-- The result of `strcpy` into a buffer of `cap` bytes: the copy when the
string and its NUL fit, nothing otherwise. -/
def strcpy (cap : Nat) (src : List Nat) : Option (List Nat) :=
  if src.length < cap then some src else none

/-- The delimiter set `" \t\n\r"` of the `strtok` calls. -/
def isDelim (c : Nat) : Bool := c == 32 || c == 9 || c == 10 || c == 13

/-- The words still to be returned by `strtok` when `cur` has been scanned of
the current word and `rest` is unread. -/
def strtokFrom : List Nat → List Nat → List (List Nat)
  | cur, [] => if cur = [] then [] else [cur]
  | cur, c :: cs =>
    if isDelim c then
      if cur = [] then strtokFrom [] cs else cur :: strtokFrom [] cs
    else strtokFrom (cur ++ [c]) cs

/-- The successive results of `strtok(copy, " \t\n\r")`, `strtok(NULL, ...)`,
up to the `NULL` that ends the loop. -/
def strtok_all (s : List Nat) : List (List Nat) := strtokFrom [] s

/-! ## Training (`train_classifier`) -/

/-- The count update of lines 91-97 on the node found or created. -/
def count_update (is_spam : Bool) (n : HashNode) : HashNode :=
  if is_spam then { n with spam_count := n.spam_count + 1 }
  else { n with ham_count := n.ham_count + 1 }

/-- The chain walk of lines 71-97: the first node carrying `clean` is
updated; when there is none a new node is linked at the end of the chain. -/
def train_chain (is_spam : Bool) (clean : List Nat) : List HashNode → List HashNode
  | [] => [count_update is_spam (create_hash_node clean)]
  | n :: rest =>
    if n.word = clean then count_update is_spam n :: rest
    else n :: train_chain is_spam clean rest

/-- Replace the chain of bucket `i`. -/
def setBucket (t : Nat → List HashNode) (i : Nat) (chain : List HashNode) :
    Nat → List HashNode :=
  fun j => if j = i then chain else t j

/-- The store update for one qualifying token (lines 70-97). -/
def train_token (vocab : Vocabulary) (is_spam : Bool) (clean : List Nat) : Vocabulary :=
  let index := hash clean
  { vocab with
    table := setBucket vocab.table index (train_chain is_spam clean (vocab.table index)),
    total_spam_words := if is_spam then vocab.total_spam_words + 1 else vocab.total_spam_words,
    total_ham_words := if is_spam then vocab.total_ham_words else vocab.total_ham_words + 1 }

/-- One iteration of the training loop on the raw word `word` (lines 64-99). -/
def train_word (vocab : Vocabulary) (is_spam : Bool) (word : List Nat) : Option Vocabulary :=
  match strcpy MAX_WORD_LENGTH word with
  | none => none
  | some copied =>
    let clean := clean_word copied
    if clean.length > 2 then some (train_token vocab is_spam clean) else some vocab

/-- The training loop over the words returned by `strtok`. -/
def train_loop (vocab : Vocabulary) (is_spam : Bool) : List (List Nat) → Option Vocabulary
  | [] => some vocab
  | w :: ws =>
    match train_word vocab is_spam w with
    | none => none
    | some v => train_loop v is_spam ws

/-- The email count update of lines 105-109. -/
def count_email (vocab : Vocabulary) (is_spam : Bool) : Vocabulary :=
  if is_spam then { vocab with total_spam_emails := vocab.total_spam_emails + 1 }
  else { vocab with total_ham_emails := vocab.total_ham_emails + 1 }

/-- Train with one email (`train_classifier`); `is_spam` is the truth value
of the C argument. -/
def train_classifier (vocab : Vocabulary) (email : List Nat) (is_spam : Bool) :
    Option Vocabulary :=
  match strcpy MAX_EMAIL_LENGTH email with
  | none => none
  | some copy =>
    match train_loop vocab is_spam (strtok_all copy) with
    | none => none
    | some v => some (count_email v is_spam)

/-- Number of stored nodes (`get_vocabulary_size`). -/
def get_vocabulary_size (vocab : Vocabulary) : Nat :=
  ((List.range TABLE_SIZE).map (fun i => (vocab.table i).length)).sum

/-- The chain search of lines 141-146: the first node of the bucket of
`clean` that carries `clean`. -/
def find_node (vocab : Vocabulary) (clean : List Nat) : Option HashNode :=
  (vocab.table (hash clean)).find? (fun n => n.word = clean)

/-! ## Scoring (`calculate_probability`) -/

/-- Division of two `double` values. -/
noncomputable def fdiv (x y : Option ℝ) : Option ℝ :=
  match x, y with
  | some a, some b => if b = 0 then none else some (a / b)
  | _, _ => none

/-- Sum of two `double` values. -/
noncomputable def fadd (x y : Option ℝ) : Option ℝ :=
  match x, y with
  | some a, some b => some (a + b)
  | _, _ => none

/-- Difference of two `double` values. -/
noncomputable def fsub (x y : Option ℝ) : Option ℝ :=
  match x, y with
  | some a, some b => some (a - b)
  | _, _ => none

/-- The natural logarithm `log` of a `double` value. -/
noncomputable def flog (x : Option ℝ) : Option ℝ :=
  match x with
  | some a => if 0 < a then some (Real.log a) else none
  | none => none

/-- The exponential `exp` of a `double` value, as an exact real number: the
underflow of `exp` to 0 (arguments below about -745) is not followed. -/
noncomputable def fexp (x : Option ℝ) : Option ℝ := x.map Real.exp

/-- The local variables the scoring loop carries. -/
structure ScoreState where
  log_prob_spam : Option ℝ
  log_prob_ham : Option ℝ
  words_processed : Nat

/-- The smoothed likelihoods `p_word_spam`, `p_word_ham` of lines 149-161. -/
noncomputable def word_likelihoods (vocab : Vocabulary) (vocab_size : Nat)
    (clean : List Nat) : Option ℝ × Option ℝ :=
  match find_node vocab clean with
  | some current =>
    (fdiv (some ((current.spam_count : ℝ) + 1.0))
        (some (((vocab.total_spam_words + (vocab_size : Int) : Int) : ℝ))),
      fdiv (some ((current.ham_count : ℝ) + 1.0))
        (some (((vocab.total_ham_words + (vocab_size : Int) : Int) : ℝ))))
  | none =>
    (fdiv (some 1.0) (some (((vocab.total_spam_words + (vocab_size : Int) : Int) : ℝ))),
      fdiv (some 1.0) (some (((vocab.total_ham_words + (vocab_size : Int) : Int) : ℝ))))

/-- The accumulation of lines 140-166 for one qualifying token. -/
noncomputable def score_token (vocab : Vocabulary) (vocab_size : Nat) (st : ScoreState)
    (clean : List Nat) : ScoreState :=
  let p := word_likelihoods vocab vocab_size clean
  { log_prob_spam := fadd st.log_prob_spam (flog p.1),
    log_prob_ham := fadd st.log_prob_ham (flog p.2),
    words_processed := st.words_processed + 1 }

/-- One iteration of the scoring loop on the raw word `word` (lines 135-167). -/
noncomputable def score_word (vocab : Vocabulary) (vocab_size : Nat) (st : ScoreState)
    (word : List Nat) : Option ScoreState :=
  match strcpy MAX_WORD_LENGTH word with
  | none => none
  | some copied =>
    let clean := clean_word copied
    if clean.length > 2 then some (score_token vocab vocab_size st clean) else some st

/-- The scoring loop over the words returned by `strtok`. -/
noncomputable def score_loop (vocab : Vocabulary) (vocab_size : Nat) :
    ScoreState → List (List Nat) → Option ScoreState
  | st, [] => some st
  | st, w :: ws =>
    match score_word vocab vocab_size st w with
    | none => none
    | some st1 => score_loop vocab vocab_size st1 ws

/-- The spam probability of an email (`calculate_probability`), computed over
exact real numbers: `some p` when the function returns the real number `p`. -/
noncomputable def calculate_probability (vocab : Vocabulary) (email : List Nat) : Option ℝ :=
  if vocab.total_spam_emails = 0 ∨ vocab.total_ham_emails = 0 then some 0.5
  else
    let prior_spam := fdiv (some (vocab.total_spam_emails : ℝ))
      (some (((vocab.total_spam_emails + vocab.total_ham_emails : Int) : ℝ)))
    let prior_ham := fsub (some 1.0) prior_spam
    let log_prob_spam := flog prior_spam
    let log_prob_ham := flog prior_ham
    match strcpy MAX_EMAIL_LENGTH email with
    | none => none
    | some copy =>
      let vocab_size := get_vocabulary_size vocab
      match score_loop vocab vocab_size
          { log_prob_spam := log_prob_spam, log_prob_ham := log_prob_ham,
            words_processed := 0 } (strtok_all copy) with
      | none => none
      | some st =>
        if st.words_processed = 0 then some 0.5
        else fdiv (fexp st.log_prob_spam) (fadd (fexp st.log_prob_spam) (fexp st.log_prob_ham))

/-! ## Model persistence (`save_model`, `load_model`) -/

/-- White space as `fscanf` skips it (`isspace` in the C locale). -/
def isspace (c : Nat) : Bool := c == 32 || (9 ≤ c && c ≤ 13)

/-- Decimal digits (`isdigit`). -/
def isdigit (c : Nat) : Bool := 48 ≤ c && c ≤ 57

/-- The decimal digits of `n`, most significant first; `fuel` bounds their
number. -/
def nat_digits : Nat → Nat → List Nat
  | 0, _ => []
  | fuel + 1, n =>
    if n < 10 then [48 + n] else nat_digits fuel (n / 10) ++ [48 + n % 10]

/-- The text `printf("%d", n)` writes. -/
def print_int (n : Int) : List Nat :=
  if n < 0 then 45 :: nat_digits (n.natAbs + 1) n.natAbs
  else nat_digits (n.natAbs + 1) n.natAbs

/-- The line `"%s %d %d\n"` of one node. -/
def entry_line (n : HashNode) : List Nat :=
  n.word ++ [32] ++ print_int n.spam_count ++ [32] ++ print_int n.ham_count ++ [10]

/-- The header line `"%d %d %d %d\n"`. -/
def header_line (vocab : Vocabulary) : List Nat :=
  print_int vocab.total_spam_emails ++ [32] ++ print_int vocab.total_ham_emails ++ [32] ++
    print_int vocab.total_spam_words ++ [32] ++ print_int vocab.total_ham_words ++ [10]

/-- The content `save_model` writes to the file it created: the header, then
the nodes bucket by bucket, each chain from its head. -/
def save_model (vocab : Vocabulary) : List Nat :=
  header_line vocab ++
    (List.range TABLE_SIZE).flatMap (fun i => (vocab.table i).flatMap entry_line)

/-- Drop leading white space. -/
def skip_space : List Nat → List Nat
  | [] => []
  | c :: cs => if isspace c then skip_space cs else c :: cs

/-- Read the longest run of digits, accumulating its value on `acc`. -/
def scan_digits (acc : Nat) : List Nat → Nat × List Nat
  | [] => (acc, [])
  | c :: cs => if isdigit c then scan_digits (10 * acc + (c - 48)) cs else (acc, c :: cs)

/-- The conversion `%d` of `fscanf`: the value read, if any, and the unread
input. -/
def scan_int (s : List Nat) : Option Int × List Nat :=
  match skip_space s with
  | [] => (none, [])
  | c :: cs =>
    if c = 45 ∨ c = 43 then
      match cs with
      | [] => (none, [])
      | d :: ds =>
        if isdigit d then
          let r := scan_digits 0 (d :: ds)
          (some (if c = 45 then -(r.1 : Int) else (r.1 : Int)), r.2)
        else (none, d :: ds)
    else if isdigit c then
      let r := scan_digits 0 (c :: cs)
      (some (r.1 : Int), r.2)
    else (none, c :: cs)

/-- Read the longest run of characters that are not white space. -/
def scan_nonspace : List Nat → List Nat × List Nat
  | [] => ([], [])
  | c :: cs =>
    if isspace c then ([], c :: cs)
    else ((c :: (scan_nonspace cs).1), (scan_nonspace cs).2)

/-- The conversion `%s` of `fscanf`: the word read, if any, and the unread
input. -/
def scan_word (s : List Nat) : Option (List Nat) × List Nat :=
  match skip_space s with
  | [] => (none, [])
  | c :: cs => (some (scan_nonspace (c :: cs)).1, (scan_nonspace (c :: cs)).2)

/-- The header read by `fscanf(file, "%d %d %d %d", ...)` into the freshly
initialised vocabulary: the fields up to the first failing conversion are
assigned. -/
def load_header (s : List Nat) : Vocabulary × List Nat :=
  match scan_int s with
  | (none, r) => (init_vocabulary, r)
  | (some a, r1) =>
    match scan_int r1 with
    | (none, r) => ({ init_vocabulary with total_spam_emails := a }, r)
    | (some b, r2) =>
      match scan_int r2 with
      | (none, r) =>
        ({ init_vocabulary with total_spam_emails := a, total_ham_emails := b }, r)
      | (some c, r3) =>
        match scan_int r3 with
        | (none, r) =>
          ({ init_vocabulary with
              total_spam_emails := a, total_ham_emails := b, total_spam_words := c }, r)
        | (some d, r) =>
          ({ init_vocabulary with
              total_spam_emails := a, total_ham_emails := b,
              total_spam_words := c, total_ham_words := d }, r)

/-- The chain walk of lines 298-316: the first node carrying `word` gets the
counts read; when there is none a new node with them is linked at the end. -/
def load_chain (word : List Nat) (spam_count ham_count : Int) :
    List HashNode → List HashNode
  | [] => [{ create_hash_node word with spam_count := spam_count, ham_count := ham_count }]
  | n :: rest =>
    if n.word = word then { n with spam_count := spam_count, ham_count := ham_count } :: rest
    else n :: load_chain word spam_count ham_count rest

/-- The store update for one entry read (lines 297-316). -/
def load_entry (vocab : Vocabulary) (word : List Nat) (spam_count ham_count : Int) :
    Vocabulary :=
  { vocab with
    table := setBucket vocab.table (hash word)
      (load_chain word spam_count ham_count (vocab.table (hash word))) }

/-- The loop `while (fscanf(file, "%s %d %d", ...) == 3)`; every iteration
consumes input, and `fuel` bounds the number of iterations. -/
def load_loop : Nat → Vocabulary → List Nat → Option Vocabulary
  | 0, vocab, _ => some vocab
  | fuel + 1, vocab, s =>
    match scan_word s with
    | (none, _) => some vocab
    | (some w, r1) =>
      match strcpy MAX_WORD_LENGTH w with
      | none => none
      | some word =>
        match scan_int r1 with
        | (none, _) => some vocab
        | (some spam_count, r2) =>
          match scan_int r2 with
          | (none, _) => some vocab
          | (some ham_count, r3) =>
            load_loop fuel (load_entry vocab word spam_count ham_count) r3

/-- Load a model (`load_model`): `file` is the content of the file, `none`
when it cannot be opened. -/
def load_model (vocab : Vocabulary) (file : Option (List Nat)) : Option Vocabulary :=
  match file with
  | none => some vocab
  | some content =>
    let h := load_header content
    load_loop (content.length + 1) h.1 h.2

/-! ## Notions the properties are stated with -/

/-- The token sequence of a text: the cleaned words of length above 2, in
order, as the loops of `train_classifier` and `calculate_probability` meet
them. -/
def tokens (email : List Nat) : List (List Nat) :=
  ((strtok_all email).map clean_word).filter (fun w => decide (w.length > 2))

/-- The text and each of its raw words fit the buffers they are copied to. -/
def fitsBuffers (email : List Nat) : Prop :=
  email.length < MAX_EMAIL_LENGTH ∧ ∀ w ∈ strtok_all email, w.length < MAX_WORD_LENGTH

instance (email : List Nat) : Decidable (fitsBuffers email) := by
  unfold fitsBuffers; infer_instance

/-- The spam count the chain search finds for a token, 0 when it is absent. -/
def spam_count_of (vocab : Vocabulary) (t : List Nat) : Int :=
  match find_node vocab t with
  | some n => n.spam_count
  | none => 0

/-- The ham count the chain search finds for a token, 0 when it is absent. -/
def ham_count_of (vocab : Vocabulary) (t : List Nat) : Int :=
  match find_node vocab t with
  | some n => n.ham_count
  | none => 0

/-- The count of a token for a label. -/
def count_of (is_spam : Bool) (vocab : Vocabulary) (t : List Nat) : Int :=
  if is_spam then spam_count_of vocab t else ham_count_of vocab t

/-- The word total of a label. -/
def words_of (is_spam : Bool) (vocab : Vocabulary) : Int :=
  if is_spam then vocab.total_spam_words else vocab.total_ham_words

/-- The email count of a label. -/
def emails_of (is_spam : Bool) (vocab : Vocabulary) : Int :=
  if is_spam then vocab.total_spam_emails else vocab.total_ham_emails

/-- Sum of `spam_count` over all stored nodes. -/
def sum_spam_counts (vocab : Vocabulary) : Int :=
  ((List.range TABLE_SIZE).map
    (fun i => ((vocab.table i).map HashNode.spam_count).sum)).sum

/-- Sum of `ham_count` over all stored nodes. -/
def sum_ham_counts (vocab : Vocabulary) : Int :=
  ((List.range TABLE_SIZE).map
    (fun i => ((vocab.table i).map HashNode.ham_count).sum)).sum

/-- The vocabularies built from the empty one by `train_classifier` calls
that return. -/
inductive Trained : Vocabulary → Prop
  | init : Trained init_vocabulary
  | train (v v1 : Vocabulary) (email : List Nat) (is_spam : Bool) :
      Trained v → train_classifier v email is_spam = some v1 → Trained v1

/-- The store after the tokens `toks` have been counted for a label. -/
def train_tokens (vocab : Vocabulary) (is_spam : Bool) (toks : List (List Nat)) : Vocabulary :=
  toks.foldl (fun v t => train_token v is_spam t) vocab

/-- The two word totals agree with the sums of the node counts. -/
def TotalsMatch (vocab : Vocabulary) : Prop :=
  vocab.total_spam_words = sum_spam_counts vocab ∧
    vocab.total_ham_words = sum_ham_counts vocab

/-! ## Closed forms of the scoring loop -/

/-- The scoring state after the tokens `toks` have been accumulated. -/
noncomputable def score_tokens (vocab : Vocabulary) (vocab_size : Nat) (st : ScoreState)
    (toks : List (List Nat)) : ScoreState :=
  toks.foldl (fun s t => score_token vocab vocab_size s t) st

/-- Smoothed likelihood of a token under the spam class, as a real number. -/
noncomputable def p_spam (vocab : Vocabulary) (vocab_size : Nat) (t : List Nat) : ℝ :=
  ((spam_count_of vocab t : ℝ) + 1) / ((vocab.total_spam_words : ℝ) + (vocab_size : ℝ))

/-- Smoothed likelihood of a token under the ham class, as a real number. -/
noncomputable def p_ham (vocab : Vocabulary) (vocab_size : Nat) (t : List Nat) : ℝ :=
  ((ham_count_of vocab t : ℝ) + 1) / ((vocab.total_ham_words : ℝ) + (vocab_size : ℝ))

/-! ## The closed form of the posterior -/

/-- The prior of the spam class, `total_spam_emails / (total_spam_emails + total_ham_emails)`. -/
noncomputable def prior_spam (vocab : Vocabulary) : ℝ :=
  (vocab.total_spam_emails : ℝ) / ((vocab.total_spam_emails : ℝ) + (vocab.total_ham_emails : ℝ))

/-- The prior of the ham class, `1 - prior_spam`. -/
noncomputable def prior_ham (vocab : Vocabulary) : ℝ := 1 - prior_spam vocab

/-- The weight `S`: the spam prior times the product over the tokens of
`(spam_count + 1) / (total_spam_words + V)`, absent tokens counting 0. -/
noncomputable def spam_score (vocab : Vocabulary) (toks : List (List Nat)) : ℝ :=
  prior_spam vocab *
    (toks.map (fun t => ((spam_count_of vocab t : ℝ) + 1) /
      ((vocab.total_spam_words : ℝ) + (get_vocabulary_size vocab : ℝ)))).prod

/-- The weight `H`: the ham prior times the product over the tokens of
`(ham_count + 1) / (total_ham_words + V)`, absent tokens counting 0. -/
noncomputable def ham_score (vocab : Vocabulary) (toks : List (List Nat)) : ℝ :=
  prior_ham vocab *
    (toks.map (fun t => ((ham_count_of vocab t : ℝ) + 1) /
      ((vocab.total_ham_words : ℝ) + (get_vocabulary_size vocab : ℝ)))).prod

/-- The posterior `S / (S + H)` of the specification. -/
noncomputable def bayes_posterior (vocab : Vocabulary) (toks : List (List Nat)) : ℝ :=
  spam_score vocab toks / (spam_score vocab toks + ham_score vocab toks)

/-- What a vocabulary and a text must satisfy for every `log` and every
division of the scoring to stay within the real numbers: both smoothing
denominators positive and no negative count among the tokens. -/
def ScoringDefined (vocab : Vocabulary) (toks : List (List Nat)) : Prop :=
  0 < vocab.total_spam_words + (get_vocabulary_size vocab : Int) ∧
  0 < vocab.total_ham_words + (get_vocabulary_size vocab : Int) ∧
  ∀ t ∈ toks, 0 ≤ spam_count_of vocab t ∧ 0 ≤ ham_count_of vocab t

/-! ## Sample data -/

/-- The vocabulary after `train_classifier(v, "win free money now click here urgent", 1)`
on the empty vocabulary. -/
def vocab_spam_only : Vocabulary :=
  count_email (train_tokens init_vocabulary true
    (tokens (bytes "win free money now click here urgent"))) true

/-- The vocabulary `vocab_spam_only` after
`train_classifier(v, "meeting scheduled for tomorrow please attend", 0)`. -/
def vocab_two_emails : Vocabulary :=
  count_email (train_tokens vocab_spam_only false
    (tokens (bytes "meeting scheduled for tomorrow please attend"))) false

/-- The vocabulary after `train_classifier(v, "hi", 1)` and
`train_classifier(v, "ok", 0)` on the empty vocabulary: two emails counted,
no token stored. -/
def vocab_no_tokens : Vocabulary :=
  count_email (train_tokens
    (count_email (train_tokens init_vocabulary true (tokens (bytes "hi"))) true)
    false (tokens (bytes "ok"))) false

/-- The vocabulary after `train_classifier(v, "free money now", 1)` twice and
`train_classifier(v, "hello", 0)` once on the empty vocabulary. -/
def vocab_more_spam : Vocabulary :=
  count_email (train_tokens
    (count_email (train_tokens
      (count_email (train_tokens init_vocabulary true (tokens (bytes "free money now"))) true)
      true (tokens (bytes "free money now"))) true)
    false (tokens (bytes "hello"))) false

/-- A vocabulary with one stored token whose spam count is negative, as
`load_model` builds it from the model file `"1 1 3 3\nfree -3 4\n"`. -/
def vocab_negative_count : Vocabulary :=
  { table := setBucket (fun _ => []) (hash (bytes "free"))
      [{ word := bytes "free", spam_count := -3, ham_count := 4 }],
    total_spam_emails := 1, total_ham_emails := 1,
    total_spam_words := 3, total_ham_words := 3 }

/-! ## Well-formed stores -/

/-- A word as `save_model` can print it and `%s` read it back into the word
buffer: not empty, shorter than `MAX_WORD_LENGTH`, without white space. -/
def GoodWord (w : List Nat) : Prop :=
  w ≠ [] ∧ w.length < MAX_WORD_LENGTH ∧ ∀ x ∈ w, isspace x = false

/-- The store after the entries of `nodes` have been loaded in order. -/
def load_nodes (vocab : Vocabulary) (nodes : List HashNode) : Vocabulary :=
  nodes.foldl (fun v n => load_entry v n.word n.spam_count n.ham_count) vocab

/-- Every node sits in the bucket of its word, carries a word that can be
printed and read back, and no two nodes of a chain carry the same word. -/
def Stored (vocab : Vocabulary) : Prop :=
  (∀ i : Nat, ∀ n ∈ vocab.table i, hash n.word = i ∧ GoodWord n.word) ∧
    ∀ i : Nat, ((vocab.table i).map HashNode.word).Nodup

/-- The nodes `save_model` enumerates from the first `k` buckets. -/
def nodes_upto (vocab : Vocabulary) (k : Nat) : List HashNode :=
  (List.range k).flatMap (fun i => vocab.table i)

/-- No stored count and no word total is negative. -/
def CountsNonneg (vocab : Vocabulary) : Prop :=
  (∀ i : Nat, ∀ n ∈ vocab.table i, 0 ≤ n.spam_count ∧ 0 ≤ n.ham_count) ∧
    0 ≤ vocab.total_spam_words ∧ 0 ≤ vocab.total_ham_words

/-- Lowercase ASCII letters and digits. -/
def isLowerAlnum (c : Nat) : Bool := (48 ≤ c && c ≤ 57) || (97 ≤ c && c ≤ 122)

/-- A text made of one raw word of 50 letters `a`, the size of the word
buffer. -/
def text_long_word : List Nat := bytes "aaaaaaaaaaaaaaaaaaaaaaaaaaaaaaaaaaaaaaaaaaaaaaaaaa"

/-- The reference cleaning of the specification: drop every character that
is not an ASCII letter or digit, lowercase the rest, order preserved. -/
def reference_clean (w : List Nat) : List Nat := (w.filter isalnum).map tolower

/-- The reference tokenization of the specification: split on space, tab,
newline and carriage return into non-empty raw words, clean each raw word,
discard the results of length at most 2, order and duplicates kept. -/
def reference_tokens (email : List Nat) : List (List Nat) :=
  (((email.splitOnP isDelim).filter (fun w => decide (w ≠ []))).map reference_clean).filter
    (fun t => !decide (t.length ≤ 2))

/-- The model file `"1 1 5 5\nfree 1 0\n"`: a header announcing 5 spam words
and 5 ham words, and one entry with counts 1 and 0. -/
def file_inconsistent_header : List Nat := bytes "1 1 5 5\nfree 1 0\n"

/-- The vocabulary `load_model` builds from `file_inconsistent_header`. -/
def vocab_inconsistent : Vocabulary :=
  { table := setBucket (fun _ => []) (hash (bytes "free"))
      [{ word := bytes "free", spam_count := 1, ham_count := 0 }],
    total_spam_emails := 1, total_ham_emails := 1,
    total_spam_words := 5, total_ham_words := 5 }

/-- The vocabularies reachable from the empty one by `train_classifier` and
`load_model` calls that return. -/
inductive Reachable : Vocabulary → Prop
  | init : Reachable init_vocabulary
  | train (v v1 : Vocabulary) (email : List Nat) (is_spam : Bool) :
      Reachable v → train_classifier v email is_spam = some v1 → Reachable v1
  | load (v v1 : Vocabulary) (file : Option (List Nat)) :
      Reachable v → load_model v file = some v1 → Reachable v1

/-- The vocabularies built from the empty one by training only, with the
tokens of all the training texts so far. -/
inductive TrainedWith : List (List Nat) → Vocabulary → Prop
  | init : TrainedWith [] init_vocabulary
  | train (toks : List (List Nat)) (v v1 : Vocabulary) (email : List Nat) (is_spam : Bool) :
      TrainedWith toks v → train_classifier v email is_spam = some v1 →
      TrainedWith (toks ++ tokens email) v1

/-- The words of all stored nodes, bucket by bucket. -/
def stored_words (vocab : Vocabulary) : List (List Nat) :=
  (nodes_upto vocab TABLE_SIZE).map HashNode.word

/-- Every node sits in the bucket of its word and no two nodes of a chain
carry the same word. -/
def Placed (vocab : Vocabulary) : Prop :=
  (∀ i : Nat, ∀ n ∈ vocab.table i, hash n.word = i) ∧
    ∀ i : Nat, ((vocab.table i).map HashNode.word).Nodup

/-- What `train_classifier` returns for a text within the buffer limits. -/
def train_text (vocab : Vocabulary) (email : List Nat) (is_spam : Bool) : Vocabulary :=
  count_email (train_tokens vocab is_spam (tokens email)) is_spam

/-- The built-in training set (`train_default_data` of `main.c`): seven spam
examples, then seven ham examples. -/
def train_default_data (vocab : Vocabulary) : Option Vocabulary := do
  let v ← train_classifier vocab (bytes "win free money now click here urgent") true
  let v ← train_classifier v (bytes "congratulations you won lottery claim prize") true
  let v ← train_classifier v (bytes "urgent your account has been compromised") true
  let v ← train_classifier v (bytes "limited time offer buy now discount") true
  let v ← train_classifier v (bytes "inheritance money transfer fees required") true
  let v ← train_classifier v (bytes "you are selected for special promotion") true
  let v ← train_classifier v (bytes "claim your free gift now limited") true
  let v ← train_classifier v (bytes "meeting scheduled for tomorrow please attend") false
  let v ← train_classifier v (bytes "project deadline next week team collaboration") false
  let v ← train_classifier v (bytes "lunch together friday restaurant reservation") false
  let v ← train_classifier v (bytes "family dinner this weekend bring dessert") false
  let v ← train_classifier v (bytes "software update available security patch install") false
  let v ← train_classifier v (bytes "weekly report attached please review") false
  train_classifier v (bytes "birthday party next month save the date") false

/-- The spam examples of `train_default_data`. -/
def default_spam : List (List Nat) :=
  [bytes "win free money now click here urgent",
   bytes "congratulations you won lottery claim prize",
   bytes "urgent your account has been compromised",
   bytes "limited time offer buy now discount",
   bytes "inheritance money transfer fees required",
   bytes "you are selected for special promotion",
   bytes "claim your free gift now limited"]

/-- The ham examples of `train_default_data`. -/
def default_ham : List (List Nat) :=
  [bytes "meeting scheduled for tomorrow please attend",
   bytes "project deadline next week team collaboration",
   bytes "lunch together friday restaurant reservation",
   bytes "family dinner this weekend bring dessert",
   bytes "software update available security patch install",
   bytes "weekly report attached please review",
   bytes "birthday party next month save the date"]

/-- The vocabulary `train_default_data` builds from the empty one. -/
def vocab_default : Vocabulary :=
  default_ham.foldl (fun v e => train_text v e false)
    (default_spam.foldl (fun v e => train_text v e true) init_vocabulary)

/-- The cases of `test_accuracy` (`main.c`): the email and whether it is
expected to be spam. -/
def test_cases : List (List Nat × Bool) :=
  [(bytes "win free money now click here", true),
   (bytes "meeting tomorrow at conference room", false),
   (bytes "congratulations you won prize", true),
   (bytes "lunch meeting with team today", false),
   (bytes "urgent account verification required", true),
   (bytes "project deadline extended to friday", false),
   (bytes "claim your free gift now", true),
   (bytes "family dinner this weekend", false)]

/-- The product over the tokens of `spam_count + 1`. -/
def spam_weight (vocab : Vocabulary) (toks : List (List Nat)) : Int :=
  (toks.map (fun t => spam_count_of vocab t + 1)).prod

/-- The product over the tokens of `ham_count + 1`. -/
def ham_weight (vocab : Vocabulary) (toks : List (List Nat)) : Int :=
  (toks.map (fun t => ham_count_of vocab t + 1)).prod

/-- Two vocabularies that the scorer cannot tell apart: the same four totals,
the same number of stored nodes, and for every token the same counts found by
the chain search. -/
def SameModel (v1 v2 : Vocabulary) : Prop :=
  v1.total_spam_emails = v2.total_spam_emails ∧
  v1.total_ham_emails = v2.total_ham_emails ∧
  v1.total_spam_words = v2.total_spam_words ∧
  v1.total_ham_words = v2.total_ham_words ∧
  get_vocabulary_size v1 = get_vocabulary_size v2 ∧
  ∀ t : List Nat, spam_count_of v1 t = spam_count_of v2 t ∧
    ham_count_of v1 t = ham_count_of v2 t

/-- The chain search of `train_classifier` finds the word in its bucket. -/
def HasWord (vocab : Vocabulary) (w : List Nat) : Prop :=
  w ∈ (vocab.table (hash w)).map HashNode.word

instance (vocab : Vocabulary) (w : List Nat) : Decidable (HasWord vocab w) := by
  unfold HasWord; infer_instance

/-- The tokens of a list that the chain search does not find in the
vocabulary: those a training call creates a node for. -/
def new_words (vocab : Vocabulary) (toks : List (List Nat)) : Finset (List Nat) :=
  toks.toFinset.filter (fun w => ¬ HasWord vocab w)

/-! ## The training loop as a fold over the token sequence -/

theorem hash_lt (w : List Nat) : hash w < TABLE_SIZE := by
  unfold hash
  exact Nat.mod_lt _ (by decide)

theorem train_loop_eq (is_spam : Bool) (ws : List (List Nat)) :
    ∀ vocab : Vocabulary, (∀ w ∈ ws, w.length < MAX_WORD_LENGTH) →
      train_loop vocab is_spam ws = some (train_tokens vocab is_spam
        ((ws.map clean_word).filter (fun w => decide (w.length > 2)))) := by
  induction ws with
  | nil => intro vocab _; rfl
  | cons w ws ih =>
    intro vocab h
    have hw : w.length < MAX_WORD_LENGTH := h w (List.mem_cons_self _ _)
    have hws : ∀ x ∈ ws, x.length < MAX_WORD_LENGTH :=
      fun x hx => h x (List.mem_cons_of_mem _ hx)
    by_cases hc : (clean_word w).length > 2
    · simp [train_loop, train_word, strcpy, hw, hc, ih _ hws, train_tokens]
    · simp [train_loop, train_word, strcpy, hw, hc, ih _ hws, train_tokens]

theorem train_loop_some (is_spam : Bool) (ws : List (List Nat)) :
    ∀ vocab v1 : Vocabulary, train_loop vocab is_spam ws = some v1 →
      ∀ w ∈ ws, w.length < MAX_WORD_LENGTH := by
  induction ws with
  | nil => intro _ _ _ w hw; simp at hw
  | cons x ws ih =>
    intro vocab v1 h w hw
    by_cases hx : x.length < MAX_WORD_LENGTH
    · rcases List.mem_cons.mp hw with rfl | hmem
      · exact hx
      · simp only [train_loop, train_word, strcpy, hx, if_true] at h
        by_cases hc : (clean_word x).length > 2
        · simp only [hc, if_true] at h
          exact ih _ _ h w hmem
        · simp only [hc, if_false] at h
          exact ih _ _ h w hmem
    · simp [train_loop, train_word, strcpy, hx] at h

/-- Within the buffer limits `train_classifier` returns, and its result is the
fold of the per-token update over the token sequence followed by the email
count. -/
theorem train_classifier_eq (vocab : Vocabulary) (email : List Nat) (is_spam : Bool)
    (h : fitsBuffers email) :
    train_classifier vocab email is_spam =
      some (count_email (train_tokens vocab is_spam (tokens email)) is_spam) := by
  obtain ⟨h1, h2⟩ := h
  simp [train_classifier, strcpy, h1, train_loop_eq is_spam _ vocab h2, tokens]

/-- A call of `train_classifier` that returns was within the buffer limits. -/
theorem fitsBuffers_of_train (vocab v1 : Vocabulary) (email : List Nat) (is_spam : Bool)
    (h : train_classifier vocab email is_spam = some v1) : fitsBuffers email := by
  unfold train_classifier strcpy at h
  by_cases h1 : email.length < MAX_EMAIL_LENGTH
  · simp only [h1, if_true] at h
    refine ⟨h1, ?_⟩
    cases hl : train_loop vocab is_spam (strtok_all email) with
    | none => simp [hl] at h
    | some v => exact train_loop_some is_spam _ vocab v hl
  · simp [h1] at h

/-! ## Effect of one token on the chains -/

theorem count_update_word (is_spam : Bool) (n : HashNode) :
    (count_update is_spam n).word = n.word := by
  unfold count_update; split <;> rfl

theorem find_train_chain_self (is_spam : Bool) (w : List Nat) (chain : List HashNode) :
    (train_chain is_spam w chain).find? (fun n => n.word = w) =
      some (count_update is_spam
        ((chain.find? (fun n => n.word = w)).getD (create_hash_node w))) := by
  induction chain with
  | nil => simp [train_chain, count_update_word, create_hash_node]
  | cons n rest ih =>
    by_cases h : n.word = w
    · simp [train_chain, h, count_update_word]
    · simp [train_chain, h, ih]

theorem find_train_chain_ne (is_spam : Bool) (w t : List Nat) (h : t ≠ w)
    (chain : List HashNode) :
    (train_chain is_spam w chain).find? (fun n => n.word = t) =
      chain.find? (fun n => n.word = t) := by
  induction chain with
  | nil =>
    simp [train_chain, count_update_word, create_hash_node, Ne.symm h]
  | cons n rest ih =>
    by_cases hn : n.word = w
    · have hne : ¬ n.word = t := fun e => h (e.symm.trans hn)
      simp [train_chain, hn, count_update_word, Ne.symm h]
    · rw [train_chain, if_neg hn]
      simp only [List.find?_cons, ih]

theorem find_node_train_token_self (vocab : Vocabulary) (is_spam : Bool) (w : List Nat) :
    find_node (train_token vocab is_spam w) w =
      some (count_update is_spam ((find_node vocab w).getD (create_hash_node w))) := by
  simp [find_node, train_token, setBucket, find_train_chain_self]

theorem find_node_train_token_ne (vocab : Vocabulary) (is_spam : Bool) (w t : List Nat)
    (h : t ≠ w) :
    find_node (train_token vocab is_spam w) t = find_node vocab t := by
  unfold find_node train_token setBucket
  by_cases hh : hash t = hash w
  · simp [hh, find_train_chain_ne is_spam w t h]
  · simp [hh]

/-- One token adds one to its own count for the label and leaves every other
count of that label as it was. -/
theorem count_of_train_token (vocab : Vocabulary) (is_spam : Bool) (w t : List Nat) :
    count_of is_spam (train_token vocab is_spam w) t =
      count_of is_spam vocab t + (if w = t then 1 else 0) := by
  by_cases h : w = t
  · subst h
    cases is_spam <;>
      cases hf : find_node vocab w <;>
      simp [count_of, spam_count_of, ham_count_of, find_node_train_token_self, hf,
        count_update, create_hash_node]
  · have h2 : t ≠ w := fun e => h e.symm
    cases is_spam <;>
      simp [count_of, spam_count_of, ham_count_of, find_node_train_token_ne _ _ _ _ h2, h]

/-- One token leaves the counts of the other label as they were. -/
theorem count_of_train_token_other (vocab : Vocabulary) (is_spam : Bool) (w t : List Nat) :
    count_of (!is_spam) (train_token vocab is_spam w) t = count_of (!is_spam) vocab t := by
  by_cases h : w = t
  · subst h
    cases is_spam <;>
      cases hf : find_node vocab w <;>
      simp [count_of, spam_count_of, ham_count_of, find_node_train_token_self, hf,
        count_update, create_hash_node]
  · have h2 : t ≠ w := fun e => h e.symm
    cases is_spam <;>
      simp [count_of, spam_count_of, ham_count_of, find_node_train_token_ne _ _ _ _ h2]

theorem words_of_train_token (vocab : Vocabulary) (is_spam : Bool) (w : List Nat) :
    words_of is_spam (train_token vocab is_spam w) = words_of is_spam vocab + 1 := by
  cases is_spam <;> simp [words_of, train_token]

theorem emails_of_train_token (vocab : Vocabulary) (l is_spam : Bool) (w : List Nat) :
    emails_of l (train_token vocab is_spam w) = emails_of l vocab := by
  cases l <;> simp [emails_of, train_token]

theorem count_of_train_tokens (is_spam : Bool) (t : List Nat) (toks : List (List Nat)) :
    ∀ vocab : Vocabulary, count_of is_spam (train_tokens vocab is_spam toks) t =
      count_of is_spam vocab t + (toks.count t : Int) := by
  induction toks with
  | nil => intro vocab; simp [train_tokens]
  | cons w ws ih =>
    intro vocab
    have := ih (train_token vocab is_spam w)
    simp only [train_tokens, List.foldl_cons] at this ⊢
    rw [this, count_of_train_token, List.count_cons]
    by_cases h : w = t
    · simp [h]; ring
    · simp [h]

theorem words_of_train_tokens (is_spam : Bool) (toks : List (List Nat)) :
    ∀ vocab : Vocabulary, words_of is_spam (train_tokens vocab is_spam toks) =
      words_of is_spam vocab + (toks.length : Int) := by
  induction toks with
  | nil => intro vocab; simp [train_tokens]
  | cons w ws ih =>
    intro vocab
    have := ih (train_token vocab is_spam w)
    simp only [train_tokens, List.foldl_cons] at this ⊢
    rw [this, words_of_train_token]
    simp; ring

theorem emails_of_train_tokens (l is_spam : Bool) (toks : List (List Nat)) :
    ∀ vocab : Vocabulary, emails_of l (train_tokens vocab is_spam toks) = emails_of l vocab := by
  induction toks with
  | nil => intro vocab; simp [train_tokens]
  | cons w ws ih =>
    intro vocab
    have := ih (train_token vocab is_spam w)
    simp only [train_tokens, List.foldl_cons] at this ⊢
    rw [this, emails_of_train_token]

theorem count_of_count_email (l is_spam : Bool) (vocab : Vocabulary) (t : List Nat) :
    count_of l (count_email vocab is_spam) t = count_of l vocab t := by
  cases l <;> cases is_spam <;>
    simp [count_of, spam_count_of, ham_count_of, find_node, count_email]

theorem words_of_count_email (l is_spam : Bool) (vocab : Vocabulary) :
    words_of l (count_email vocab is_spam) = words_of l vocab := by
  cases l <;> cases is_spam <;> simp [words_of, count_email]

theorem emails_of_count_email (is_spam : Bool) (vocab : Vocabulary) :
    emails_of is_spam (count_email vocab is_spam) = emails_of is_spam vocab + 1 := by
  cases is_spam <;> simp [emails_of, count_email]

/-! ## Effect of one token on the sums over all nodes -/

theorem sum_range_setBucket (f : List HashNode → Int) (t : Nat → List HashNode) (i : Nat)
    (c : List HashNode) (n : Nat) :
    ((List.range n).map (fun j => f (setBucket t i c j))).sum =
      ((List.range n).map (fun j => f (t j))).sum + (if i < n then f c - f (t i) else 0) := by
  induction n with
  | zero => simp
  | succ n ih =>
    rw [List.range_succ, List.map_append, List.map_append, List.sum_append, List.sum_append, ih]
    by_cases h1 : i < n
    · have h2 : i < n + 1 := by omega
      have h3 : n ≠ i := by omega
      simp [h1, h2, setBucket, h3]; ring
    · by_cases h2 : i = n
      · subst h2
        simp [setBucket]
      · have h3 : ¬ i < n + 1 := by omega
        have h4 : n ≠ i := fun e => h2 e.symm
        simp [h1, h3, setBucket, h4]

theorem sum_spam_train_chain (is_spam : Bool) (w : List Nat) (chain : List HashNode) :
    ((train_chain is_spam w chain).map HashNode.spam_count).sum =
      (chain.map HashNode.spam_count).sum + (if is_spam then 1 else 0) := by
  induction chain with
  | nil => cases is_spam <;> simp [train_chain, count_update, create_hash_node]
  | cons n rest ih =>
    by_cases h : n.word = w
    · cases is_spam <;> simp [train_chain, h, count_update]; ring
    · simp [train_chain, h, ih]; ring

theorem sum_ham_train_chain (is_spam : Bool) (w : List Nat) (chain : List HashNode) :
    ((train_chain is_spam w chain).map HashNode.ham_count).sum =
      (chain.map HashNode.ham_count).sum + (if is_spam then 0 else 1) := by
  induction chain with
  | nil => cases is_spam <;> simp [train_chain, count_update, create_hash_node]
  | cons n rest ih =>
    by_cases h : n.word = w
    · cases is_spam <;> simp [train_chain, h, count_update]; ring
    · simp [train_chain, h, ih]; ring

theorem sum_spam_counts_train_token (vocab : Vocabulary) (is_spam : Bool) (w : List Nat) :
    sum_spam_counts (train_token vocab is_spam w) =
      sum_spam_counts vocab + (if is_spam then 1 else 0) := by
  unfold sum_spam_counts train_token
  simp only []
  rw [sum_range_setBucket (fun c => (c.map HashNode.spam_count).sum)]
  simp only [hash_lt, if_true, sum_spam_train_chain]
  ring

theorem sum_ham_counts_train_token (vocab : Vocabulary) (is_spam : Bool) (w : List Nat) :
    sum_ham_counts (train_token vocab is_spam w) =
      sum_ham_counts vocab + (if is_spam then 0 else 1) := by
  unfold sum_ham_counts train_token
  simp only []
  rw [sum_range_setBucket (fun c => (c.map HashNode.ham_count).sum)]
  simp only [hash_lt, if_true, sum_ham_train_chain]
  ring

theorem totalsMatch_train_token (vocab : Vocabulary) (is_spam : Bool) (w : List Nat)
    (h : TotalsMatch vocab) : TotalsMatch (train_token vocab is_spam w) := by
  obtain ⟨h1, h2⟩ := h
  refine ⟨?_, ?_⟩
  · rw [sum_spam_counts_train_token, ← h1]
    cases is_spam <;> simp [train_token]
  · rw [sum_ham_counts_train_token, ← h2]
    cases is_spam <;> simp [train_token]

theorem totalsMatch_train_tokens (is_spam : Bool) (toks : List (List Nat)) :
    ∀ vocab : Vocabulary, TotalsMatch vocab → TotalsMatch (train_tokens vocab is_spam toks) := by
  induction toks with
  | nil => intro vocab h; exact h
  | cons w ws ih =>
    intro vocab h
    exact ih _ (totalsMatch_train_token vocab is_spam w h)

theorem totalsMatch_count_email (vocab : Vocabulary) (is_spam : Bool)
    (h : TotalsMatch vocab) : TotalsMatch (count_email vocab is_spam) := by
  cases is_spam <;> exact h

theorem totalsMatch_init : TotalsMatch init_vocabulary := by
  simp [TotalsMatch, sum_spam_counts, sum_ham_counts, init_vocabulary]

theorem totalsMatch_of_trained (vocab : Vocabulary) (h : Trained vocab) :
    TotalsMatch vocab := by
  induction h with
  | init => exact totalsMatch_init
  | train v v1 email is_spam _ htrain ih =>
    have hfit := fitsBuffers_of_train v v1 email is_spam htrain
    rw [train_classifier_eq v email is_spam hfit] at htrain
    cases htrain
    exact totalsMatch_count_email _ _ (totalsMatch_train_tokens _ _ _ ih)

/-! ## The scoring loop as a fold over the token sequence -/

theorem score_loop_eq (vocab : Vocabulary) (vocab_size : Nat) (ws : List (List Nat)) :
    ∀ st : ScoreState, (∀ w ∈ ws, w.length < MAX_WORD_LENGTH) →
      score_loop vocab vocab_size st ws = some (score_tokens vocab vocab_size st
        ((ws.map clean_word).filter (fun w => decide (w.length > 2)))) := by
  induction ws with
  | nil => intro st _; rfl
  | cons w ws ih =>
    intro st h
    have hw : w.length < MAX_WORD_LENGTH := h w (List.mem_cons_self _ _)
    have hws : ∀ x ∈ ws, x.length < MAX_WORD_LENGTH :=
      fun x hx => h x (List.mem_cons_of_mem _ hx)
    by_cases hc : (clean_word w).length > 2
    · simp [score_loop, score_word, strcpy, hw, hc, ih _ hws, score_tokens]
    · simp [score_loop, score_word, strcpy, hw, hc, ih _ hws, score_tokens]

theorem score_tokens_words_processed (vocab : Vocabulary) (vocab_size : Nat)
    (toks : List (List Nat)) :
    ∀ st : ScoreState, (score_tokens vocab vocab_size st toks).words_processed =
      st.words_processed + toks.length := by
  induction toks with
  | nil => intro st; simp [score_tokens]
  | cons t ts ih =>
    intro st
    have := ih (score_token vocab vocab_size st t)
    simp only [score_tokens, List.foldl_cons] at this ⊢
    rw [this]
    simp [score_token]; omega

theorem word_likelihoods_eq (vocab : Vocabulary) (vocab_size : Nat) (t : List Nat)
    (hs : (vocab.total_spam_words : ℝ) + (vocab_size : ℝ) ≠ 0)
    (hh : (vocab.total_ham_words : ℝ) + (vocab_size : ℝ) ≠ 0) :
    word_likelihoods vocab vocab_size t =
      (some (p_spam vocab vocab_size t), some (p_ham vocab vocab_size t)) := by
  unfold word_likelihoods p_spam p_ham spam_count_of ham_count_of
  cases hf : find_node vocab t with
  | none =>
    simp only [fdiv, Int.cast_add, Int.cast_natCast, hs, hh, if_false]
    norm_num
  | some n =>
    simp only [fdiv, Int.cast_add, Int.cast_natCast, hs, hh, if_false]
    norm_num

theorem score_tokens_eq (vocab : Vocabulary) (vocab_size : Nat)
    (hs : (vocab.total_spam_words : ℝ) + (vocab_size : ℝ) ≠ 0)
    (hh : (vocab.total_ham_words : ℝ) + (vocab_size : ℝ) ≠ 0)
    (toks : List (List Nat))
    (hpos : ∀ t ∈ toks, 0 < p_spam vocab vocab_size t ∧ 0 < p_ham vocab vocab_size t) :
    ∀ (a b : ℝ) (n : Nat),
      score_tokens vocab vocab_size
          { log_prob_spam := some a, log_prob_ham := some b, words_processed := n } toks =
        { log_prob_spam :=
            some (a + (toks.map (fun t => Real.log (p_spam vocab vocab_size t))).sum),
          log_prob_ham :=
            some (b + (toks.map (fun t => Real.log (p_ham vocab vocab_size t))).sum),
          words_processed := n + toks.length } := by
  induction toks with
  | nil => intro a b n; simp [score_tokens]
  | cons t ts ih =>
    intro a b n
    have ht := hpos t (List.mem_cons_self _ _)
    have hts : ∀ x ∈ ts, 0 < p_spam vocab vocab_size x ∧ 0 < p_ham vocab vocab_size x :=
      fun x hx => hpos x (List.mem_cons_of_mem _ hx)
    have step : score_token vocab vocab_size
        { log_prob_spam := some a, log_prob_ham := some b, words_processed := n } t =
        { log_prob_spam := some (a + Real.log (p_spam vocab vocab_size t)),
          log_prob_ham := some (b + Real.log (p_ham vocab vocab_size t)),
          words_processed := n + 1 } := by
      simp [score_token, word_likelihoods_eq vocab vocab_size t hs hh, flog, fadd, ht.1, ht.2]
    have := ih hts (a + Real.log (p_spam vocab vocab_size t))
      (b + Real.log (p_ham vocab vocab_size t)) (n + 1)
    simp only [score_tokens, List.foldl_cons] at this ⊢
    rw [step, this]
    simp only [List.map_cons, List.sum_cons, List.length_cons, ScoreState.mk.injEq,
      Option.some.injEq]
    refine ⟨by ring, by ring, by omega⟩

theorem exp_add_sum_log (p : List Nat → ℝ) (toks : List (List Nat))
    (hpos : ∀ t ∈ toks, 0 < p t) (a : ℝ) :
    Real.exp (a + (toks.map (fun t => Real.log (p t))).sum) =
      Real.exp a * (toks.map p).prod := by
  induction toks with
  | nil => simp
  | cons t ts ih =>
    have ht := hpos t (List.mem_cons_self _ _)
    have hts : ∀ x ∈ ts, 0 < p x := fun x hx => hpos x (List.mem_cons_of_mem _ hx)
    have e : a + ((t :: ts).map (fun t => Real.log (p t))).sum =
        Real.log (p t) + (a + (ts.map (fun t => Real.log (p t))).sum) := by
      simp only [List.map_cons, List.sum_cons]; ring
    rw [e, Real.exp_add, Real.exp_log ht, ih hts]
    simp only [List.map_cons, List.prod_cons]; ring

theorem prior_spam_pos (vocab : Vocabulary) (hs : 0 < vocab.total_spam_emails)
    (hh : 0 < vocab.total_ham_emails) : 0 < prior_spam vocab := by
  have h1 : (0 : ℝ) < (vocab.total_spam_emails : ℝ) := by exact_mod_cast hs
  have h2 : (0 : ℝ) < (vocab.total_ham_emails : ℝ) := by exact_mod_cast hh
  unfold prior_spam
  positivity

theorem prior_ham_eq (vocab : Vocabulary) (hs : 0 < vocab.total_spam_emails)
    (hh : 0 < vocab.total_ham_emails) :
    prior_ham vocab = (vocab.total_ham_emails : ℝ) /
      ((vocab.total_spam_emails : ℝ) + (vocab.total_ham_emails : ℝ)) := by
  have h1 : (0 : ℝ) < (vocab.total_spam_emails : ℝ) := by exact_mod_cast hs
  have h2 : (0 : ℝ) < (vocab.total_ham_emails : ℝ) := by exact_mod_cast hh
  unfold prior_ham prior_spam
  field_simp

theorem prior_ham_pos (vocab : Vocabulary) (hs : 0 < vocab.total_spam_emails)
    (hh : 0 < vocab.total_ham_emails) : 0 < prior_ham vocab := by
  have h1 : (0 : ℝ) < (vocab.total_spam_emails : ℝ) := by exact_mod_cast hs
  have h2 : (0 : ℝ) < (vocab.total_ham_emails : ℝ) := by exact_mod_cast hh
  rw [prior_ham_eq vocab hs hh]
  positivity

theorem p_pos_of_scoringDefined (vocab : Vocabulary) (toks : List (List Nat))
    (h : ScoringDefined vocab toks) :
    ∀ t ∈ toks, 0 < p_spam vocab (get_vocabulary_size vocab) t ∧
      0 < p_ham vocab (get_vocabulary_size vocab) t := by
  obtain ⟨hs, hh, hc⟩ := h
  intro t ht
  have hs1 : (0 : ℝ) < (vocab.total_spam_words : ℝ) + (get_vocabulary_size vocab : ℝ) := by
    exact_mod_cast hs
  have hh1 : (0 : ℝ) < (vocab.total_ham_words : ℝ) + (get_vocabulary_size vocab : ℝ) := by
    exact_mod_cast hh
  have c1 : (0 : ℝ) ≤ (spam_count_of vocab t : ℝ) := by exact_mod_cast (hc t ht).1
  have c2 : (0 : ℝ) ≤ (ham_count_of vocab t : ℝ) := by exact_mod_cast (hc t ht).2
  unfold p_spam p_ham
  constructor <;> positivity

theorem spam_score_pos (vocab : Vocabulary) (toks : List (List Nat))
    (hs : 0 < vocab.total_spam_emails) (hh : 0 < vocab.total_ham_emails)
    (h : ScoringDefined vocab toks) : 0 < spam_score vocab toks := by
  unfold spam_score
  refine mul_pos (prior_spam_pos vocab hs hh) (List.prod_pos ?_)
  intro x hx
  obtain ⟨t, ht, rfl⟩ := List.mem_map.mp hx
  exact (p_pos_of_scoringDefined vocab toks h t ht).1

theorem ham_score_pos (vocab : Vocabulary) (toks : List (List Nat))
    (hs : 0 < vocab.total_spam_emails) (hh : 0 < vocab.total_ham_emails)
    (h : ScoringDefined vocab toks) : 0 < ham_score vocab toks := by
  unfold ham_score
  refine mul_pos (prior_ham_pos vocab hs hh) (List.prod_pos ?_)
  intro x hx
  obtain ⟨t, ht, rfl⟩ := List.mem_map.mp hx
  exact (p_pos_of_scoringDefined vocab toks h t ht).2

/-- Where the scoring stays within the real numbers, `calculate_probability`
returns the posterior `S / (S + H)`. -/
theorem calculate_probability_eq (vocab : Vocabulary) (email : List Nat)
    (hs : 0 < vocab.total_spam_emails) (hh : 0 < vocab.total_ham_emails)
    (hfit : fitsBuffers email) (hne : tokens email ≠ [])
    (hdef : ScoringDefined vocab (tokens email)) :
    calculate_probability vocab email = some (bayes_posterior vocab (tokens email)) := by
  have hpos := p_pos_of_scoringDefined vocab (tokens email) hdef
  obtain ⟨hds, hdh, _⟩ := hdef
  have hds1 : (vocab.total_spam_words : ℝ) + (get_vocabulary_size vocab : ℝ) ≠ 0 := by
    have : (0 : ℝ) < (vocab.total_spam_words : ℝ) + (get_vocabulary_size vocab : ℝ) := by
      exact_mod_cast hds
    exact ne_of_gt this
  have hdh1 : (vocab.total_ham_words : ℝ) + (get_vocabulary_size vocab : ℝ) ≠ 0 := by
    have : (0 : ℝ) < (vocab.total_ham_words : ℝ) + (get_vocabulary_size vocab : ℝ) := by
      exact_mod_cast hdh
    exact ne_of_gt this
  have h1 : (0 : ℝ) < (vocab.total_spam_emails : ℝ) := by exact_mod_cast hs
  have h2 : (0 : ℝ) < (vocab.total_ham_emails : ℝ) := by exact_mod_cast hh
  have hsum : ((vocab.total_spam_emails : ℝ) + (vocab.total_ham_emails : ℝ)) ≠ 0 := by
    positivity
  have hps := prior_spam_pos vocab hs hh
  have hph := prior_ham_pos vocab hs hh
  have e1 : fdiv (some (vocab.total_spam_emails : ℝ))
      (some (((vocab.total_spam_emails + vocab.total_ham_emails : Int) : ℝ))) =
      some (prior_spam vocab) := by
    simp only [fdiv, Int.cast_add, hsum, if_false, prior_spam]
  have e2 : fsub (some 1.0) (some (prior_spam vocab)) = some (prior_ham vocab) := by
    simp only [fsub, prior_ham]; norm_num
  have e3 : flog (some (prior_spam vocab)) = some (Real.log (prior_spam vocab)) := by
    simp only [flog, hps, if_true]
  have e4 : flog (some (prior_ham vocab)) = some (Real.log (prior_ham vocab)) := by
    simp only [flog, hph, if_true]
  have hlen : (tokens email).length ≠ 0 := by
    intro h; exact hne (List.length_eq_zero.mp h)
  unfold calculate_probability
  rw [if_neg (by intro h; rcases h with h | h <;> omega)]
  simp only [e1, e2, e3, e4, strcpy, hfit.1, if_true]
  have hloop : score_loop vocab (get_vocabulary_size vocab)
      { log_prob_spam := some (Real.log (prior_spam vocab)),
        log_prob_ham := some (Real.log (prior_ham vocab)), words_processed := 0 }
      (strtok_all email) =
      some (score_tokens vocab (get_vocabulary_size vocab)
        { log_prob_spam := some (Real.log (prior_spam vocab)),
          log_prob_ham := some (Real.log (prior_ham vocab)), words_processed := 0 }
        (tokens email)) := score_loop_eq vocab _ _ _ hfit.2
  rw [hloop, score_tokens_eq vocab _ hds1 hdh1 (tokens email) hpos]
  simp only [zero_add, hlen, if_false, fexp, Option.map_some', fadd]
  rw [exp_add_sum_log (p_spam vocab (get_vocabulary_size vocab)) _ (fun t ht => (hpos t ht).1),
    exp_add_sum_log (p_ham vocab (get_vocabulary_size vocab)) _ (fun t ht => (hpos t ht).2),
    Real.exp_log hps, Real.exp_log hph]
  have hS := spam_score_pos vocab (tokens email) hs hh
    ⟨hds, hdh, by assumption⟩
  have hH := ham_score_pos vocab (tokens email) hs hh
    ⟨hds, hdh, by assumption⟩
  have hS' : prior_spam vocab * ((tokens email).map (p_spam vocab (get_vocabulary_size vocab))).prod
      = spam_score vocab (tokens email) := rfl
  have hH' : prior_ham vocab * ((tokens email).map (p_ham vocab (get_vocabulary_size vocab))).prod
      = ham_score vocab (tokens email) := rfl
  rw [hS', hH']
  have hne0 : spam_score vocab (tokens email) + ham_score vocab (tokens email) ≠ 0 := by
    positivity
  simp only [fdiv, hne0, if_false, bayes_posterior]

theorem train_vocab_spam_only :
    train_classifier init_vocabulary (bytes "win free money now click here urgent") true =
      some vocab_spam_only :=
  train_classifier_eq _ _ _ (by decide)

theorem train_vocab_two_emails :
    train_classifier vocab_spam_only (bytes "meeting scheduled for tomorrow please attend")
      false = some vocab_two_emails :=
  train_classifier_eq _ _ _ (by decide)

theorem trained_vocab_spam_only : Trained vocab_spam_only :=
  Trained.train _ _ _ _ Trained.init train_vocab_spam_only

theorem trained_vocab_two_emails : Trained vocab_two_emails :=
  Trained.train _ _ _ _ trained_vocab_spam_only train_vocab_two_emails

/-! ## Properties of the specification -/

/-- C1: in every vocabulary built from `init_vocabulary` by `train_classifier`
calls that return (texts within the buffer limits, any labels),
`total_spam_words` is the sum of `spam_count` over all stored nodes and
`total_ham_words` is the sum of `ham_count` over all stored nodes. -/
theorem totals_equal_sums_of_trained (vocab : Vocabulary) (h : Trained vocab) :
    vocab.total_spam_words = sum_spam_counts vocab ∧
      vocab.total_ham_words = sum_ham_counts vocab :=
  totalsMatch_of_trained vocab h

/-- Witness of C1 at the vocabulary trained with one spam and one ham email. -/
theorem totals_equal_sums_of_trained_witness :
    Trained vocab_two_emails ∧
      (vocab_two_emails.total_spam_words = sum_spam_counts vocab_two_emails ∧
        vocab_two_emails.total_ham_words = sum_ham_counts vocab_two_emails) :=
  ⟨trained_vocab_two_emails,
    totals_equal_sums_of_trained vocab_two_emails trained_vocab_two_emails⟩

/-- C4: on every vocabulary, a text within the buffer limits that is empty or
whose whitespace-separated words all clean to at most 2 characters is scored
exactly 0.5. -/
theorem probability_half_of_no_token (vocab : Vocabulary) (email : List Nat)
    (hfit : fitsBuffers email)
    (h : email = [] ∨ ∀ w ∈ strtok_all email, (clean_word w).length ≤ 2) :
    calculate_probability vocab email = some 0.5 := by
  have htok : tokens email = [] := by
    rcases h with h | h
    · subst h; rfl
    · unfold tokens
      rw [List.filter_eq_nil_iff]
      intro x hx
      obtain ⟨w, hw, rfl⟩ := List.mem_map.mp hx
      have := h w hw
      simp only [gt_iff_lt, decide_eq_true_eq, not_lt]
      exact this
  unfold calculate_probability
  by_cases h0 : vocab.total_spam_emails = 0 ∨ vocab.total_ham_emails = 0
  · rw [if_pos h0]
  · rw [if_neg h0]
    simp only [strcpy, hfit.1, if_true]
    rw [score_loop_eq vocab _ _ _ hfit.2]
    have e : (List.filter (fun w => decide (w.length > 2))
        (List.map clean_word (strtok_all email))) = [] := htok
    rw [e]
    simp [score_tokens]

/-- Witness of C4 at the two-email vocabulary and the text `"a to, ?! it"`. -/
theorem probability_half_of_no_token_witness :
    fitsBuffers (bytes "a to, ?! it") ∧
      (bytes "a to, ?! it" = [] ∨
        ∀ w ∈ strtok_all (bytes "a to, ?! it"), (clean_word w).length ≤ 2) ∧
      calculate_probability vocab_two_emails (bytes "a to, ?! it") = some 0.5 :=
  ⟨by decide, Or.inr (by decide),
    probability_half_of_no_token vocab_two_emails (bytes "a to, ?! it") (by decide)
      (Or.inr (by decide))⟩

/-- C5: on every vocabulary in which `total_spam_emails` or `total_ham_emails`
is zero, every text is scored exactly 0.5. -/
theorem probability_half_of_missing_class (vocab : Vocabulary) (email : List Nat)
    (h : vocab.total_spam_emails = 0 ∨ vocab.total_ham_emails = 0) :
    calculate_probability vocab email = some 0.5 := by
  unfold calculate_probability
  rw [if_pos h]

/-- Witness of C5 at the vocabulary trained with spam only. -/
theorem probability_half_of_missing_class_witness :
    (vocab_spam_only.total_spam_emails = 0 ∨ vocab_spam_only.total_ham_emails = 0) ∧
      calculate_probability vocab_spam_only (bytes "win free money") = some 0.5 :=
  ⟨Or.inr (by decide),
    probability_half_of_missing_class vocab_spam_only (bytes "win free money")
      (Or.inr (by decide))⟩

/-- C7: for a text within the buffer limits, two successive calls
`train_classifier(v, d, l)` return, and they raise each token's count for `l`
and the word total for `l` by twice what the first call alone does, and the
email count for `l` by 2. -/
theorem train_twice_doubles (vocab : Vocabulary) (email : List Nat) (is_spam : Bool)
    (hfit : fitsBuffers email) :
    ∃ v1 v2 : Vocabulary,
      train_classifier vocab email is_spam = some v1 ∧
      train_classifier v1 email is_spam = some v2 ∧
      (∀ t : List Nat, count_of is_spam v2 t - count_of is_spam vocab t =
        2 * (count_of is_spam v1 t - count_of is_spam vocab t)) ∧
      words_of is_spam v2 - words_of is_spam vocab =
        2 * (words_of is_spam v1 - words_of is_spam vocab) ∧
      emails_of is_spam v2 = emails_of is_spam vocab + 2 := by
  refine ⟨_, _, train_classifier_eq vocab email is_spam hfit,
    train_classifier_eq _ email is_spam hfit, ?_, ?_, ?_⟩
  · intro t
    simp only [count_of_count_email, count_of_train_tokens]
    ring
  · simp only [words_of_count_email, words_of_train_tokens]
    ring
  · simp only [emails_of_count_email, emails_of_train_tokens]
    ring

/-- Witness of C7 at the empty vocabulary and the text `"free free money"`. -/
theorem train_twice_doubles_witness :
    fitsBuffers (bytes "free free money") ∧
    ∃ v1 v2 : Vocabulary,
      train_classifier init_vocabulary (bytes "free free money") true = some v1 ∧
      train_classifier v1 (bytes "free free money") true = some v2 ∧
      (∀ t : List Nat, count_of true v2 t - count_of true init_vocabulary t =
        2 * (count_of true v1 t - count_of true init_vocabulary t)) ∧
      words_of true v2 - words_of true init_vocabulary =
        2 * (words_of true v1 - words_of true init_vocabulary) ∧
      emails_of true v2 = emails_of true init_vocabulary + 2 :=
  ⟨by decide, train_twice_doubles init_vocabulary (bytes "free free money") true (by decide)⟩

/-- C10: for a text within the buffer limits, `train_classifier(v, d, l)`
returns a vocabulary in which each token's count for `l` is its previous count
(0 when it was absent) plus the number of its occurrences in the token sequence
of `d`, and the word total for `l` has grown by the length of that sequence. -/
theorem train_adds_occurrences (vocab : Vocabulary) (email : List Nat) (is_spam : Bool)
    (hfit : fitsBuffers email) :
    ∃ v1 : Vocabulary,
      train_classifier vocab email is_spam = some v1 ∧
      (∀ t : List Nat, count_of is_spam v1 t =
        count_of is_spam vocab t + ((tokens email).count t : Int)) ∧
      words_of is_spam v1 = words_of is_spam vocab + ((tokens email).length : Int) := by
  refine ⟨_, train_classifier_eq vocab email is_spam hfit, ?_, ?_⟩
  · intro t
    simp only [count_of_count_email, count_of_train_tokens]
  · simp only [words_of_count_email, words_of_train_tokens]

/-- Witness of C10 at the spam-only vocabulary and the text `"Free, free money"`. -/
theorem train_adds_occurrences_witness :
    fitsBuffers (bytes "Free, free money") ∧
    ∃ v1 : Vocabulary,
      train_classifier vocab_spam_only (bytes "Free, free money") true = some v1 ∧
      (∀ t : List Nat, count_of true v1 t =
        count_of true vocab_spam_only t +
          ((tokens (bytes "Free, free money")).count t : Int)) ∧
      words_of true v1 = words_of true vocab_spam_only +
        ((tokens (bytes "Free, free money")).length : Int) :=
  ⟨by decide, train_adds_occurrences vocab_spam_only (bytes "Free, free money") true (by decide)⟩

/-! ## Comparing the posterior with one half -/

theorem bayes_posterior_gt_half (vocab : Vocabulary) (toks : List (List Nat))
    (hS : 0 < spam_score vocab toks) (hH : 0 < ham_score vocab toks)
    (h : ham_score vocab toks < spam_score vocab toks) :
    bayes_posterior vocab toks > 0.5 := by
  unfold bayes_posterior
  rw [gt_iff_lt, lt_div_iff₀ (by positivity)]
  norm_num
  linarith

theorem bayes_posterior_lt_half (vocab : Vocabulary) (toks : List (List Nat))
    (hS : 0 < spam_score vocab toks) (hH : 0 < ham_score vocab toks)
    (h : spam_score vocab toks < ham_score vocab toks) :
    bayes_posterior vocab toks < 0.5 := by
  unfold bayes_posterior
  rw [div_lt_iff₀ (by positivity)]
  norm_num
  linarith

theorem bayes_posterior_pos (vocab : Vocabulary) (toks : List (List Nat))
    (hS : 0 < spam_score vocab toks) (hH : 0 < ham_score vocab toks) :
    0 < bayes_posterior vocab toks := by
  unfold bayes_posterior
  positivity

theorem bayes_posterior_lt_one (vocab : Vocabulary) (toks : List (List Nat))
    (hS : 0 < spam_score vocab toks) (hH : 0 < ham_score vocab toks) :
    bayes_posterior vocab toks < 1 := by
  unfold bayes_posterior
  rw [div_lt_one (by positivity)]
  linarith

theorem scoringDefined_win_free_money :
    ScoringDefined vocab_two_emails (tokens (bytes "win free money")) := by
  unfold ScoringDefined
  decide

theorem scoringDefined_meeting_tomorrow :
    ScoringDefined vocab_two_emails (tokens (bytes "meeting tomorrow")) := by
  unfold ScoringDefined
  decide

theorem scores_win_free_money :
    ham_score vocab_two_emails (tokens (bytes "win free money")) <
      spam_score vocab_two_emails (tokens (bytes "win free money")) := by
  have htok : tokens (bytes "win free money") = [bytes "win", bytes "free", bytes "money"] := by
    decide
  have hV : get_vocabulary_size vocab_two_emails = 13 := by decide
  have hse : vocab_two_emails.total_spam_emails = 1 := by decide
  have hhe : vocab_two_emails.total_ham_emails = 1 := by decide
  have hsw : vocab_two_emails.total_spam_words = 7 := by decide
  have hhw : vocab_two_emails.total_ham_words = 6 := by decide
  have s1 : spam_count_of vocab_two_emails (bytes "win") = 1 := by decide
  have s2 : spam_count_of vocab_two_emails (bytes "free") = 1 := by decide
  have s3 : spam_count_of vocab_two_emails (bytes "money") = 1 := by decide
  have c1 : ham_count_of vocab_two_emails (bytes "win") = 0 := by decide
  have c2 : ham_count_of vocab_two_emails (bytes "free") = 0 := by decide
  have c3 : ham_count_of vocab_two_emails (bytes "money") = 0 := by decide
  rw [htok]
  simp only [spam_score, ham_score, prior_spam, prior_ham, hV, hse, hhe, hsw, hhw, s1, s2, s3,
    c1, c2, c3, List.map_cons, List.map_nil, List.prod_cons, List.prod_nil]
  norm_num

theorem scores_meeting_tomorrow :
    spam_score vocab_two_emails (tokens (bytes "meeting tomorrow")) <
      ham_score vocab_two_emails (tokens (bytes "meeting tomorrow")) := by
  have htok : tokens (bytes "meeting tomorrow") = [bytes "meeting", bytes "tomorrow"] := by
    decide
  have hV : get_vocabulary_size vocab_two_emails = 13 := by decide
  have hse : vocab_two_emails.total_spam_emails = 1 := by decide
  have hhe : vocab_two_emails.total_ham_emails = 1 := by decide
  have hsw : vocab_two_emails.total_spam_words = 7 := by decide
  have hhw : vocab_two_emails.total_ham_words = 6 := by decide
  have s1 : spam_count_of vocab_two_emails (bytes "meeting") = 0 := by decide
  have s2 : spam_count_of vocab_two_emails (bytes "tomorrow") = 0 := by decide
  have c1 : ham_count_of vocab_two_emails (bytes "meeting") = 1 := by decide
  have c2 : ham_count_of vocab_two_emails (bytes "tomorrow") = 1 := by decide
  rw [htok]
  simp only [spam_score, ham_score, prior_spam, prior_ham, hV, hse, hhe, hsw, hhw, s1, s2,
    c1, c2, List.map_cons, List.map_nil, List.prod_cons, List.prod_nil]
  norm_num

/-- C3: the empty vocabulary trained with
`train_classifier(v, "win free money now click here urgent", 1)` and
`train_classifier(v, "meeting scheduled for tomorrow please attend", 0)` scores
`"win free money"` above 0.5 and `"meeting tomorrow"` below 0.5. -/
theorem spam_and_ham_example :
    ∃ v1 v2 : Vocabulary, ∃ p q : ℝ,
      train_classifier init_vocabulary (bytes "win free money now click here urgent") true =
        some v1 ∧
      train_classifier v1 (bytes "meeting scheduled for tomorrow please attend") false =
        some v2 ∧
      calculate_probability v2 (bytes "win free money") = some p ∧ p > 0.5 ∧
      calculate_probability v2 (bytes "meeting tomorrow") = some q ∧ q < 0.5 := by
  have hs : 0 < vocab_two_emails.total_spam_emails := by decide
  have hh : 0 < vocab_two_emails.total_ham_emails := by decide
  refine ⟨vocab_spam_only, vocab_two_emails, _, _, train_vocab_spam_only,
    train_vocab_two_emails,
    calculate_probability_eq vocab_two_emails (bytes "win free money") hs hh (by decide)
      (by decide) scoringDefined_win_free_money, ?_,
    calculate_probability_eq vocab_two_emails (bytes "meeting tomorrow") hs hh (by decide)
      (by decide) scoringDefined_meeting_tomorrow, ?_⟩
  · exact bayes_posterior_gt_half _ _
      (spam_score_pos _ _ hs hh scoringDefined_win_free_money)
      (ham_score_pos _ _ hs hh scoringDefined_win_free_money) scores_win_free_money
  · exact bayes_posterior_lt_half _ _
      (spam_score_pos _ _ hs hh scoringDefined_meeting_tomorrow)
      (ham_score_pos _ _ hs hh scoringDefined_meeting_tomorrow) scores_meeting_tomorrow

/-! ## Scoring that leaves the real numbers -/

theorem fadd_none_left (y : Option ℝ) : fadd none y = none := rfl

theorem score_tokens_spam_none (vocab : Vocabulary) (vocab_size : Nat)
    (toks : List (List Nat)) :
    ∀ st : ScoreState,
      (st.log_prob_spam = none ∨
        ∃ t ∈ toks, flog (word_likelihoods vocab vocab_size t).1 = none) →
      (score_tokens vocab vocab_size st toks).log_prob_spam = none := by
  induction toks with
  | nil =>
    intro st h
    rcases h with h | ⟨t, ht, _⟩
    · exact h
    · simp at ht
  | cons x xs ih =>
    intro st h
    have key : (score_token vocab vocab_size st x).log_prob_spam = none ∨
        ∃ t ∈ xs, flog (word_likelihoods vocab vocab_size t).1 = none := by
      rcases h with h | ⟨t, ht, hbad⟩
      · left
        simp [score_token, h, fadd_none_left]
      · rcases List.mem_cons.mp ht with rfl | hmem
        · left
          simp only [score_token, hbad]
          cases st.log_prob_spam <;> rfl
        · right
          exact ⟨t, hmem, hbad⟩
    have := ih (score_token vocab vocab_size st x) key
    simpa only [score_tokens, List.foldl_cons] using this

/-- When the spam likelihood of one token of the text has no logarithm in the
real numbers, `calculate_probability` returns no real number. -/
theorem calculate_probability_none (vocab : Vocabulary) (email : List Nat)
    (hs : vocab.total_spam_emails ≠ 0) (hh : vocab.total_ham_emails ≠ 0)
    (hfit : fitsBuffers email) (t : List Nat) (ht : t ∈ tokens email)
    (hbad : flog (word_likelihoods vocab (get_vocabulary_size vocab) t).1 = none) :
    calculate_probability vocab email = none := by
  unfold calculate_probability
  rw [if_neg (by intro h; rcases h with h | h; exact hs h; exact hh h)]
  simp only [strcpy, hfit.1, if_true]
  rw [score_loop_eq vocab _ _ _ hfit.2]
  have hlen : (tokens email).length ≠ 0 := by
    intro h
    rw [List.length_eq_zero.mp h] at ht
    simp at ht
  dsimp only
  generalize hst : ({ log_prob_spam := _, log_prob_ham := _, words_processed := 0 } :
    ScoreState) = st0
  have hw0 : st0.words_processed = 0 := by rw [← hst]
  have e1 := score_tokens_spam_none vocab (get_vocabulary_size vocab) (tokens email) st0
    (Or.inr ⟨t, ht, hbad⟩)
  have e2 := score_tokens_words_processed vocab (get_vocabulary_size vocab) (tokens email) st0
  rw [hw0, zero_add] at e2
  unfold tokens at e1 e2 hlen
  rw [e2, if_neg hlen, e1]
  rfl

/-- A zero smoothing denominator: `1.0 / 0` is not a real number. -/
theorem likelihood_none_of_zero_denominator (vocab : Vocabulary) (vocab_size : Nat)
    (t : List Nat) (h0 : vocab.total_spam_words + (vocab_size : Int) = 0) :
    flog (word_likelihoods vocab vocab_size t).1 = none := by
  unfold word_likelihoods
  cases find_node vocab t <;> simp [h0, fdiv, flog]

/-- A count below `-1`: the likelihood is negative and has no logarithm. -/
theorem likelihood_none_of_negative_count (vocab : Vocabulary) (vocab_size : Nat)
    (t : List Nat) (n : HashNode) (hf : find_node vocab t = some n)
    (hc : n.spam_count + 1 < 0) (hd : 0 < vocab.total_spam_words + (vocab_size : Int)) :
    flog (word_likelihoods vocab vocab_size t).1 = none := by
  have hd1 : (0 : ℝ) < ((vocab.total_spam_words + (vocab_size : Int) : Int) : ℝ) := by
    exact_mod_cast hd
  have hc1 : (n.spam_count : ℝ) + 1.0 < 0 := by
    have : ((n.spam_count + 1 : Int) : ℝ) < 0 := by exact_mod_cast hc
    push_cast at this
    norm_num
    exact this
  unfold word_likelihoods
  rw [hf]
  simp only [fdiv, ne_of_gt hd1, if_false, flog]
  rw [if_neg]
  exact not_lt.mpr (le_of_lt (div_neg_of_neg_of_pos hc1 hd1))

theorem trained_vocab_no_tokens : Trained vocab_no_tokens :=
  Trained.train _ _ (bytes "ok") false
    (Trained.train _ _ (bytes "hi") true Trained.init
      (train_classifier_eq _ _ _ (by decide)))
    (train_classifier_eq _ _ _ (by decide))

/-- C8 at its failing input: the vocabulary trained with the spam email `"hi"`
and the ham email `"ok"` is reachable and has both email counts positive, and
scoring `"hello"` divides `1.0` by the zero denominator `0 + 0`, so that no
real number (a NaN in the program) is returned. -/
theorem probability_not_real_without_tokens :
    Trained vocab_no_tokens ∧
    0 < vocab_no_tokens.total_spam_emails ∧ 0 < vocab_no_tokens.total_ham_emails ∧
    vocab_no_tokens.total_spam_words + (get_vocabulary_size vocab_no_tokens : Int) = 0 ∧
    calculate_probability vocab_no_tokens (bytes "hello") = none :=
  ⟨trained_vocab_no_tokens, by decide, by decide, by decide,
    calculate_probability_none vocab_no_tokens (bytes "hello") (by decide) (by decide)
      (by decide) (bytes "hello") (by decide)
      (likelihood_none_of_zero_denominator _ _ _ (by decide))⟩

/-- C9 as stated fails: with both email counts positive and a qualifying
token in the text, `calculate_probability` does not return `S / (S + H)` when a
smoothing denominator is zero (the token-less vocabulary, text `"free"`) nor
when a stored count is negative (the vocabulary read from
`"1 1 3 3\nfree -3 4\n"`, text `"free"`): no real number is returned. -/
theorem posterior_formula_counterexample :
    (0 < vocab_no_tokens.total_spam_emails ∧ 0 < vocab_no_tokens.total_ham_emails ∧
      tokens (bytes "free") ≠ [] ∧
      calculate_probability vocab_no_tokens (bytes "free") ≠
        some (bayes_posterior vocab_no_tokens (tokens (bytes "free")))) ∧
    (0 < vocab_negative_count.total_spam_emails ∧ 0 < vocab_negative_count.total_ham_emails ∧
      tokens (bytes "free") ≠ [] ∧
      calculate_probability vocab_negative_count (bytes "free") ≠
        some (bayes_posterior vocab_negative_count (tokens (bytes "free")))) := by
  have e1 : calculate_probability vocab_no_tokens (bytes "free") = none :=
    calculate_probability_none vocab_no_tokens (bytes "free") (by decide) (by decide)
      (by decide) (bytes "free") (by decide)
      (likelihood_none_of_zero_denominator _ _ _ (by decide))
  have e2 : calculate_probability vocab_negative_count (bytes "free") = none :=
    calculate_probability_none vocab_negative_count (bytes "free") (by decide) (by decide)
      (by decide) (bytes "free") (by decide)
      (likelihood_none_of_negative_count _ _ _
        { word := bytes "free", spam_count := -3, ham_count := 4 } (by decide) (by decide)
        (by decide))
  refine ⟨⟨by decide, by decide, by decide, ?_⟩, ⟨by decide, by decide, by decide, ?_⟩⟩
  · rw [e1]; exact fun h => Option.noConfusion h
  · rw [e2]; exact fun h => Option.noConfusion h

/-- C9, amended: for a vocabulary with both email counts positive, both
smoothing denominators positive and no negative count among the tokens, and a
text within the buffer limits with at least one token, `calculate_probability`
returns `S / (S + H)`, with `S` and `H` the prior of the class times the
product over the tokens of `(count + 1) / (total words of the class + V)`. -/
theorem probability_eq_posterior_formula (vocab : Vocabulary) (email : List Nat)
    (hs : 0 < vocab.total_spam_emails) (hh : 0 < vocab.total_ham_emails)
    (hfit : fitsBuffers email) (hne : tokens email ≠ [])
    (hdef : ScoringDefined vocab (tokens email)) :
    calculate_probability vocab email = some (bayes_posterior vocab (tokens email)) :=
  calculate_probability_eq vocab email hs hh hfit hne hdef

/-- Witness of amended C9 at the two-email vocabulary and the text
`"win free meeting"`. -/
theorem probability_eq_posterior_formula_witness :
    0 < vocab_two_emails.total_spam_emails ∧ 0 < vocab_two_emails.total_ham_emails ∧
    fitsBuffers (bytes "win free meeting") ∧ tokens (bytes "win free meeting") ≠ [] ∧
    ScoringDefined vocab_two_emails (tokens (bytes "win free meeting")) ∧
    calculate_probability vocab_two_emails (bytes "win free meeting") =
      some (bayes_posterior vocab_two_emails (tokens (bytes "win free meeting"))) := by
  have hdef : ScoringDefined vocab_two_emails (tokens (bytes "win free meeting")) := by
    unfold ScoringDefined
    decide
  exact ⟨by decide, by decide, by decide, by decide, hdef,
    probability_eq_posterior_formula vocab_two_emails (bytes "win free meeting") (by decide)
      (by decide) (by decide) (by decide) hdef⟩

/-! ## Reading back what was printed -/

theorem isdigit_nat_digits (fuel : Nat) :
    ∀ n : Nat, ∀ c ∈ nat_digits fuel n, isdigit c = true := by
  induction fuel with
  | zero => intro n c hc; simp [nat_digits] at hc
  | succ fuel ih =>
    intro n c hc
    unfold nat_digits at hc
    by_cases h : n < 10
    · rw [if_pos h] at hc
      simp only [List.mem_singleton] at hc
      subst hc
      simp [isdigit]; omega
    · rw [if_neg h] at hc
      rcases List.mem_append.mp hc with h1 | h1
      · exact ih _ c h1
      · simp only [List.mem_singleton] at h1
        subst h1
        simp [isdigit]; omega

theorem nat_digits_ne_nil (fuel n : Nat) : nat_digits (fuel + 1) n ≠ [] := by
  unfold nat_digits
  split <;> simp

theorem value_nat_digits (fuel : Nat) :
    ∀ n : Nat, n < fuel →
      (nat_digits fuel n).foldl (fun a c => 10 * a + (c - 48)) 0 = n := by
  induction fuel with
  | zero => intro n h; omega
  | succ fuel ih =>
    intro n h
    unfold nat_digits
    by_cases h10 : n < 10
    · rw [if_pos h10]
      simp
    · rw [if_neg h10, List.foldl_append, ih (n / 10) (by omega)]
      simp only [List.foldl_cons, List.foldl_nil]
      omega

theorem scan_digits_append (ds rest : List Nat) :
    ∀ acc : Nat, (∀ c ∈ ds, isdigit c = true) →
      scan_digits acc (ds ++ rest) =
        scan_digits (ds.foldl (fun a c => 10 * a + (c - 48)) acc) rest := by
  induction ds with
  | nil => intro acc _; rfl
  | cons d ds ih =>
    intro acc h
    have hd : isdigit d = true := h d (List.mem_cons_self _ _)
    simp only [List.cons_append, scan_digits, hd, if_true, List.foldl_cons]
    exact ih _ (fun c hc => h c (List.mem_cons_of_mem _ hc))

theorem scan_digits_stop (acc c : Nat) (rest : List Nat) (hc : isdigit c = false) :
    scan_digits acc (c :: rest) = (acc, c :: rest) := by
  simp [scan_digits, hc]

theorem scan_digits_nat_digits (n c : Nat) (rest : List Nat) (hc : isdigit c = false) :
    scan_digits 0 (nat_digits (n + 1) n ++ c :: rest) = (n, c :: rest) := by
  rw [scan_digits_append _ _ 0 (isdigit_nat_digits _ n), value_nat_digits _ n (by omega),
    scan_digits_stop _ _ _ hc]

theorem isspace_of_isdigit (c : Nat) (h : isdigit c = true) : isspace c = false := by
  simp only [isdigit, Bool.and_eq_true, decide_eq_true_eq] at h
  simp [isspace]
  omega

/-- The conversion `%d` reads back what `%d` printed, up to a following
character that is not a digit. -/
theorem scan_int_print_int (a : Int) (c : Nat) (rest : List Nat) (hc : isdigit c = false) :
    scan_int (print_int a ++ c :: rest) = (some a, c :: rest) := by
  obtain ⟨d, ds, hds⟩ := List.exists_cons_of_ne_nil (nat_digits_ne_nil a.natAbs a.natAbs)
  have hd : isdigit d = true :=
    isdigit_nat_digits _ a.natAbs d (by rw [hds]; exact List.mem_cons_self _ _)
  have hscan := scan_digits_nat_digits a.natAbs c rest hc
  rw [hds] at hscan
  have hd45 : ¬ (d = 45 ∨ d = 43) := by
    simp only [isdigit, Bool.and_eq_true, decide_eq_true_eq] at hd
    omega
  unfold print_int
  by_cases hneg : a < 0
  · rw [if_pos hneg, hds]
    have e : skip_space (45 :: (d :: ds) ++ c :: rest) = 45 :: d :: (ds ++ c :: rest) := by
      simp [skip_space, isspace]
    simp only [scan_int, e, true_or, if_true, hd]
    rw [show d :: (ds ++ c :: rest) = d :: ds ++ c :: rest from rfl, hscan]
    simp only [Prod.mk.injEq, Option.some.injEq, and_true]
    omega
  · rw [if_neg hneg, hds]
    have e : skip_space ((d :: ds) ++ c :: rest) = d :: (ds ++ c :: rest) := by
      simp [skip_space, isspace_of_isdigit d hd]
    simp only [scan_int, e, hd45, if_false, hd, if_true]
    rw [show d :: (ds ++ c :: rest) = d :: ds ++ c :: rest from rfl, hscan]
    simp only [Prod.mk.injEq, Option.some.injEq, and_true]
    omega

theorem scan_int_skip (c : Nat) (s : List Nat) (hc : isspace c = true) :
    scan_int (c :: s) = scan_int s := by
  simp [scan_int, skip_space, hc]

theorem scan_word_skip (c : Nat) (s : List Nat) (hc : isspace c = true) :
    scan_word (c :: s) = scan_word s := by
  simp [scan_word, skip_space, hc]

theorem scan_nonspace_append (w : List Nat) (c : Nat) (rest : List Nat)
    (hw : ∀ x ∈ w, isspace x = false) (hc : isspace c = true) :
    scan_nonspace (w ++ c :: rest) = (w, c :: rest) := by
  induction w with
  | nil => simp [scan_nonspace, hc]
  | cons x xs ih =>
    have hx : isspace x = false := hw x (List.mem_cons_self _ _)
    have := ih (fun y hy => hw y (List.mem_cons_of_mem _ hy))
    simp [scan_nonspace, hx, this]

/-- The conversion `%s` reads back a non-empty word without white space, up
to the white space that follows it. -/
theorem scan_word_append (w : List Nat) (c : Nat) (rest : List Nat) (hne : w ≠ [])
    (hw : ∀ x ∈ w, isspace x = false) (hc : isspace c = true) :
    scan_word (w ++ c :: rest) = (some w, c :: rest) := by
  obtain ⟨x, xs, rfl⟩ := List.exists_cons_of_ne_nil hne
  have hx : isspace x = false := hw x (List.mem_cons_self _ _)
  have e : skip_space (x :: xs ++ c :: rest) = x :: xs ++ c :: rest := by
    simp [skip_space, hx]
  have h2 := scan_nonspace_append (x :: xs) c rest hw hc
  simp only [scan_word, e]
  rw [show x :: xs ++ c :: rest = x :: (xs ++ c :: rest) from rfl] at h2 ⊢
  simp only [h2]

theorem load_header_header_line (vocab : Vocabulary) (rest : List Nat) :
    load_header (header_line vocab ++ rest) =
      ({ init_vocabulary with
          total_spam_emails := vocab.total_spam_emails,
          total_ham_emails := vocab.total_ham_emails,
          total_spam_words := vocab.total_spam_words,
          total_ham_words := vocab.total_ham_words }, 10 :: rest) := by
  have e : header_line vocab ++ rest =
      print_int vocab.total_spam_emails ++ 32 :: (print_int vocab.total_ham_emails ++ 32 ::
        (print_int vocab.total_spam_words ++ 32 ::
          (print_int vocab.total_ham_words ++ 10 :: rest))) := by
    simp [header_line]
  rw [e]
  unfold load_header
  rw [scan_int_print_int _ 32 _ (by decide)]
  simp only []
  rw [scan_int_skip 32 _ (by decide), scan_int_print_int _ 32 _ (by decide)]
  simp only []
  rw [scan_int_skip 32 _ (by decide), scan_int_print_int _ 32 _ (by decide)]
  simp only []
  rw [scan_int_skip 32 _ (by decide), scan_int_print_int _ 10 _ (by decide)]

theorem load_loop_entries (nodes : List HashNode) :
    ∀ (fuel : Nat) (vocab : Vocabulary), nodes.length < fuel →
      (∀ n ∈ nodes, GoodWord n.word) →
      load_loop fuel vocab (10 :: nodes.flatMap entry_line) = some (load_nodes vocab nodes) := by
  induction nodes with
  | nil =>
    intro fuel vocab hf _
    obtain ⟨f, rfl⟩ : ∃ f, fuel = f + 1 := ⟨fuel - 1, by simp at hf; omega⟩
    simp [load_loop, scan_word, skip_space, isspace, load_nodes]
  | cons n ns ih =>
    intro fuel vocab hf hgood
    obtain ⟨f, rfl⟩ : ∃ f, fuel = f + 1 := ⟨fuel - 1, by simp at hf; omega⟩
    obtain ⟨hne, hlen, hsp⟩ := hgood n (List.mem_cons_self _ _)
    have e : 10 :: (n :: ns).flatMap entry_line =
        10 :: (n.word ++ 32 :: (print_int n.spam_count ++ 32 ::
          (print_int n.ham_count ++ 10 :: ns.flatMap entry_line))) := by
      simp [entry_line]
    rw [e]
    unfold load_loop
    rw [scan_word_skip 10 _ (by decide), scan_word_append _ 32 _ hne hsp (by decide)]
    simp only [strcpy, hlen, if_true]
    rw [scan_int_skip 32 _ (by decide), scan_int_print_int _ 32 _ (by decide)]
    simp only []
    rw [scan_int_skip 32 _ (by decide), scan_int_print_int _ 10 _ (by decide)]
    simp only []
    rw [ih f _ (by simp at hf; omega) (fun m hm => hgood m (List.mem_cons_of_mem _ hm))]
    rfl

/-! ## Rebuilding the table from its own entries -/

theorem setBucket_setBucket (t : Nat → List HashNode) (k : Nat) (x y : List HashNode) :
    setBucket (setBucket t k x) k y = setBucket t k y := by
  funext j
  unfold setBucket
  split <;> rfl

theorem setBucket_same (t : Nat → List HashNode) (k : Nat) : setBucket t k (t k) = t := by
  funext j
  unfold setBucket
  split
  · next h => rw [h]
  · rfl

theorem load_chain_append (n : HashNode) (pre : List HashNode)
    (h : ∀ m ∈ pre, m.word ≠ n.word) :
    load_chain n.word n.spam_count n.ham_count pre = pre ++ [n] := by
  induction pre with
  | nil => cases n; rfl
  | cons m ms ih =>
    have hm : m.word ≠ n.word := h m (List.mem_cons_self _ _)
    simp only [load_chain, hm, if_false, List.cons_append]
    rw [ih (fun x hx => h x (List.mem_cons_of_mem _ hx))]

theorem load_nodes_totals (nodes : List HashNode) :
    ∀ vocab : Vocabulary,
      (load_nodes vocab nodes).total_spam_emails = vocab.total_spam_emails ∧
      (load_nodes vocab nodes).total_ham_emails = vocab.total_ham_emails ∧
      (load_nodes vocab nodes).total_spam_words = vocab.total_spam_words ∧
      (load_nodes vocab nodes).total_ham_words = vocab.total_ham_words := by
  induction nodes with
  | nil => intro vocab; exact ⟨rfl, rfl, rfl, rfl⟩
  | cons n ns ih =>
    intro vocab
    exact ih (load_entry vocab n.word n.spam_count n.ham_count)

/-- Loading a chain of bucket `k` whose words are new to the bucket and
distinct appends the chain to the bucket. -/
theorem load_nodes_chain (k : Nat) (chain : List HashNode) :
    ∀ vocab : Vocabulary, (∀ n ∈ chain, hash n.word = k) →
      ((vocab.table k ++ chain).map HashNode.word).Nodup →
      (load_nodes vocab chain).table = setBucket vocab.table k (vocab.table k ++ chain) := by
  induction chain with
  | nil =>
    intro vocab _ _
    simp only [load_nodes, List.foldl_nil, List.append_nil, setBucket_same]
  | cons n ns ih =>
    intro vocab hk hnd
    have hn : hash n.word = k := hk n (List.mem_cons_self _ _)
    have hnew : ∀ m ∈ vocab.table k, m.word ≠ n.word := by
      intro m hm heq
      rw [List.map_append, List.map_cons] at hnd
      have := (List.nodup_append.mp hnd).2.2
      exact this (List.mem_map_of_mem _ hm) (by rw [heq]; exact List.mem_cons_self _ _)
    have hstep : (load_entry vocab n.word n.spam_count n.ham_count).table =
        setBucket vocab.table k (vocab.table k ++ [n]) := by
      simp only [load_entry, hn, load_chain_append n _ hnew]
    have hk1 : (load_entry vocab n.word n.spam_count n.ham_count).table k =
        vocab.table k ++ [n] := by
      rw [hstep]; simp [setBucket]
    have := ih (load_entry vocab n.word n.spam_count n.ham_count)
      (fun m hm => hk m (List.mem_cons_of_mem _ hm))
      (by rw [hk1, List.append_assoc]; exact hnd)
    simp only [load_nodes, List.foldl_cons] at this ⊢
    rw [this, hk1, hstep, setBucket_setBucket, List.append_assoc]
    rfl

theorem load_nodes_append (vocab : Vocabulary) (xs ys : List HashNode) :
    load_nodes vocab (xs ++ ys) = load_nodes (load_nodes vocab xs) ys := by
  simp [load_nodes, List.foldl_append]

/-- Loading the nodes of the first `k` buckets of a well-formed vocabulary
into an empty table rebuilds these buckets. -/
theorem load_nodes_upto (vocab start : Vocabulary) (hst : Stored vocab)
    (hempty : ∀ i, start.table i = []) (k : Nat) :
    (load_nodes start (nodes_upto vocab k)).table =
      fun i => if i < k then vocab.table i else [] := by
  induction k with
  | zero =>
    funext i
    simp [nodes_upto, load_nodes, hempty]
  | succ k ih =>
    have e : nodes_upto vocab (k + 1) = nodes_upto vocab k ++ vocab.table k := by
      simp [nodes_upto, List.range_succ]
    have hk : (load_nodes start (nodes_upto vocab k)).table k = [] := by
      rw [ih]; simp
    rw [e, load_nodes_append,
      load_nodes_chain k (vocab.table k) _ (fun n hn => (hst.1 k n hn).1)
        (by rw [hk, List.nil_append]; exact hst.2 k), hk, ih]
    funext i
    unfold setBucket
    by_cases h1 : i = k
    · subst h1; simp
    · by_cases h2 : i < k
      · have : i < k + 1 := by omega
        simp [h1, h2, this]
      · have : ¬ i < k + 1 := by omega
        simp [h1, h2, this]

/-! ## Trained vocabularies are well formed -/

theorem clean_word_length_le (w : List Nat) : (clean_word w).length ≤ w.length := by
  induction w with
  | nil => simp [clean_word]
  | cons c cs ih =>
    unfold clean_word
    split
    · simp; exact ih
    · simp; omega

theorem clean_word_not_space (w : List Nat) : ∀ c ∈ clean_word w, isspace c = false := by
  induction w with
  | nil => intro c hc; simp [clean_word] at hc
  | cons x xs ih =>
    intro c hc
    unfold clean_word at hc
    by_cases hx : isalnum x = true
    · rw [if_pos hx] at hc
      rcases List.mem_cons.mp hc with rfl | h
      · simp only [isalnum, Bool.or_eq_true, Bool.and_eq_true, decide_eq_true_eq] at hx
        simp only [isspace, tolower]
        split <;> simp <;> omega
      · exact ih c h
    · rw [if_neg hx] at hc
      exact ih c hc

theorem goodWord_of_token (email : List Nat) (hfit : fitsBuffers email) :
    ∀ t ∈ tokens email, GoodWord t := by
  intro t ht
  unfold tokens at ht
  obtain ⟨hmem, hlen⟩ := List.mem_filter.mp ht
  obtain ⟨w, hw, rfl⟩ := List.mem_map.mp hmem
  simp only [gt_iff_lt, decide_eq_true_eq] at hlen
  refine ⟨?_, ?_, clean_word_not_space w⟩
  · intro h; rw [h] at hlen; simp at hlen
  · exact lt_of_le_of_lt (clean_word_length_le w) (hfit.2 w hw)

theorem map_word_train_chain (is_spam : Bool) (w : List Nat) (chain : List HashNode) :
    (train_chain is_spam w chain).map HashNode.word =
      if w ∈ chain.map HashNode.word then chain.map HashNode.word
      else chain.map HashNode.word ++ [w] := by
  induction chain with
  | nil => simp [train_chain, count_update_word, create_hash_node]
  | cons n rest ih =>
    by_cases h : n.word = w
    · simp [train_chain, h, count_update_word]
    · have h2 : ¬ w = n.word := fun e => h e.symm
      rw [train_chain, if_neg h, List.map_cons, ih]
      by_cases hm : w ∈ rest.map HashNode.word
      · simp [hm]
      · simp [hm, h2]

theorem mem_train_chain (is_spam : Bool) (w : List Nat) (chain : List HashNode) :
    ∀ m ∈ train_chain is_spam w chain, m.word = w ∨ ∃ m1 ∈ chain, m1.word = m.word := by
  intro m hm
  have h1 : m.word ∈ (train_chain is_spam w chain).map HashNode.word :=
    List.mem_map_of_mem _ hm
  rw [map_word_train_chain] at h1
  by_cases hw : w ∈ chain.map HashNode.word
  · rw [if_pos hw] at h1
    obtain ⟨m1, hm1, e⟩ := List.mem_map.mp h1
    exact Or.inr ⟨m1, hm1, e⟩
  · rw [if_neg hw] at h1
    rcases List.mem_append.mp h1 with h2 | h2
    · obtain ⟨m1, hm1, e⟩ := List.mem_map.mp h2
      exact Or.inr ⟨m1, hm1, e⟩
    · left
      simpa using h2

theorem stored_train_token (vocab : Vocabulary) (is_spam : Bool) (w : List Nat)
    (h : Stored vocab) (hw : GoodWord w) : Stored (train_token vocab is_spam w) := by
  obtain ⟨h1, h2⟩ := h
  refine ⟨?_, ?_⟩
  · intro i n hn
    simp only [train_token, setBucket] at hn
    by_cases hi : i = hash w
    · rw [if_pos hi] at hn
      rcases mem_train_chain _ _ _ n hn with e | ⟨m1, hm1, e⟩
      · rw [e]; exact ⟨hi.symm, hw⟩
      · rw [← e, hi]; exact h1 _ m1 hm1
    · rw [if_neg hi] at hn
      exact h1 i n hn
  · intro i
    simp only [train_token, setBucket]
    by_cases hi : i = hash w
    · rw [if_pos hi, map_word_train_chain]
      by_cases hm : w ∈ (vocab.table (hash w)).map HashNode.word
      · rw [if_pos hm]; exact h2 _
      · rw [if_neg hm]
        refine List.Nodup.append (h2 _) (List.nodup_singleton _) ?_
        intro a ha hb
        simp only [List.mem_singleton] at hb
        exact hm (hb ▸ ha)
    · rw [if_neg hi]; exact h2 i

theorem stored_train_tokens (is_spam : Bool) (toks : List (List Nat)) :
    ∀ vocab : Vocabulary, Stored vocab → (∀ t ∈ toks, GoodWord t) →
      Stored (train_tokens vocab is_spam toks) := by
  induction toks with
  | nil => intro vocab h _; exact h
  | cons t ts ih =>
    intro vocab h hg
    exact ih _ (stored_train_token vocab is_spam t h (hg t (List.mem_cons_self _ _)))
      (fun x hx => hg x (List.mem_cons_of_mem _ hx))

theorem stored_count_email (vocab : Vocabulary) (is_spam : Bool) (h : Stored vocab) :
    Stored (count_email vocab is_spam) := by
  cases is_spam <;> exact h

theorem stored_init : Stored init_vocabulary := by
  refine ⟨?_, ?_⟩
  · intro i n hn; simp [init_vocabulary] at hn
  · intro i; simp [init_vocabulary]

theorem stored_of_trained (vocab : Vocabulary) (h : Trained vocab) : Stored vocab := by
  induction h with
  | init => exact stored_init
  | train v v1 email is_spam _ htrain ih =>
    have hfit := fitsBuffers_of_train v v1 email is_spam htrain
    rw [train_classifier_eq v email is_spam hfit] at htrain
    cases htrain
    exact stored_count_email _ _
      (stored_train_tokens _ _ _ ih (goodWord_of_token email hfit))

/-! ## Saving then loading -/

theorem length_le_flatMap_entry_line (nodes : List HashNode) :
    nodes.length ≤ (nodes.flatMap entry_line).length := by
  induction nodes with
  | nil => simp
  | cons n ns ih =>
    simp only [List.flatMap_cons, List.length_cons, List.length_append]
    have : 1 ≤ (entry_line n).length := by simp [entry_line]; omega
    omega

theorem save_model_eq (vocab : Vocabulary) :
    save_model vocab =
      header_line vocab ++ (nodes_upto vocab TABLE_SIZE).flatMap entry_line := by
  unfold save_model nodes_upto
  rw [List.flatMap_assoc]

/-- Loading what `save_model` wrote for a well-formed vocabulary returns its
totals and its buckets, whatever the vocabulary loaded into held. -/
theorem load_model_save_model (vocab v2 : Vocabulary) (h : Stored vocab) :
    ∃ v1 : Vocabulary, load_model v2 (some (save_model vocab)) = some v1 ∧
      v1.total_spam_emails = vocab.total_spam_emails ∧
      v1.total_ham_emails = vocab.total_ham_emails ∧
      v1.total_spam_words = vocab.total_spam_words ∧
      v1.total_ham_words = vocab.total_ham_words ∧
      v1.table = fun i => if i < TABLE_SIZE then vocab.table i else [] := by
  have hlen : (nodes_upto vocab TABLE_SIZE).length < (save_model vocab).length + 1 := by
    rw [save_model_eq, List.length_append]
    have := length_le_flatMap_entry_line (nodes_upto vocab TABLE_SIZE)
    omega
  have hgood : ∀ n ∈ nodes_upto vocab TABLE_SIZE, GoodWord n.word := by
    intro n hn
    unfold nodes_upto at hn
    obtain ⟨i, _, hi⟩ := List.mem_flatMap.mp hn
    exact (h.1 i n hi).2
  refine ⟨load_nodes { init_vocabulary with
      total_spam_emails := vocab.total_spam_emails,
      total_ham_emails := vocab.total_ham_emails,
      total_spam_words := vocab.total_spam_words,
      total_ham_words := vocab.total_ham_words } (nodes_upto vocab TABLE_SIZE), ?_, ?_⟩
  · unfold load_model
    simp only []
    rw [← load_loop_entries _ _ _ hlen hgood]
    congr 1
    · rw [save_model_eq, load_header_header_line]
    · rw [save_model_eq, load_header_header_line]
  · have ht := load_nodes_totals (nodes_upto vocab TABLE_SIZE) { init_vocabulary with
      total_spam_emails := vocab.total_spam_emails,
      total_ham_emails := vocab.total_ham_emails,
      total_spam_words := vocab.total_spam_words,
      total_ham_words := vocab.total_ham_words }
    exact ⟨ht.1, ht.2.1, ht.2.2.1, ht.2.2.2,
      load_nodes_upto vocab _ h (fun _ => rfl) TABLE_SIZE⟩

/-- C2: for every vocabulary `v` built from the empty one by `train_classifier`
calls, loading the text `save_model(v)` wrote into any vocabulary `v2` returns
a vocabulary with the four totals of `v` in which the chain search finds for
every token exactly what it finds in `v` (the same counts, or nothing), every
bucket holding the nodes it holds in `v`. -/
theorem save_load_round_trip (vocab v2 : Vocabulary) (h : Trained vocab) :
    ∃ v1 : Vocabulary, load_model v2 (some (save_model vocab)) = some v1 ∧
      v1.total_spam_emails = vocab.total_spam_emails ∧
      v1.total_ham_emails = vocab.total_ham_emails ∧
      v1.total_spam_words = vocab.total_spam_words ∧
      v1.total_ham_words = vocab.total_ham_words ∧
      (∀ t : List Nat, find_node v1 t = find_node vocab t) ∧
      (∀ t : List Nat, spam_count_of v1 t = spam_count_of vocab t ∧
        ham_count_of v1 t = ham_count_of vocab t) ∧
      ∀ i : Nat, i < TABLE_SIZE → v1.table i = vocab.table i := by
  obtain ⟨v1, hload, h1, h2, h3, h4, htab⟩ :=
    load_model_save_model vocab v2 (stored_of_trained vocab h)
  have hfind : ∀ t : List Nat, find_node v1 t = find_node vocab t := by
    intro t
    unfold find_node
    rw [htab]
    simp only [hash_lt, if_true]
  refine ⟨v1, hload, h1, h2, h3, h4, hfind, ?_, ?_⟩
  · intro t
    simp only [spam_count_of, ham_count_of, hfind t, and_self]
  · intro i hi
    rw [htab]
    simp only [hi, if_true]

/-- Witness of C2: the two-email vocabulary saved and loaded over the
three-email vocabulary. -/
theorem save_load_round_trip_witness :
    Trained vocab_two_emails ∧
    ∃ v1 : Vocabulary, load_model vocab_more_spam (some (save_model vocab_two_emails)) = some v1 ∧
      v1.total_spam_emails = vocab_two_emails.total_spam_emails ∧
      v1.total_ham_emails = vocab_two_emails.total_ham_emails ∧
      v1.total_spam_words = vocab_two_emails.total_spam_words ∧
      v1.total_ham_words = vocab_two_emails.total_ham_words ∧
      (∀ t : List Nat, find_node v1 t = find_node vocab_two_emails t) ∧
      (∀ t : List Nat, spam_count_of v1 t = spam_count_of vocab_two_emails t ∧
        ham_count_of v1 t = ham_count_of vocab_two_emails t) ∧
      ∀ i : Nat, i < TABLE_SIZE → v1.table i = vocab_two_emails.table i :=
  ⟨trained_vocab_two_emails,
    save_load_round_trip vocab_two_emails vocab_more_spam trained_vocab_two_emails⟩

/-! ## The fuel of the loading loop -/

theorem skip_space_length_le (s : List Nat) : (skip_space s).length ≤ s.length := by
  induction s with
  | nil => simp [skip_space]
  | cons c cs ih =>
    unfold skip_space
    split
    · simp; omega
    · simp

theorem scan_nonspace_length_le (s : List Nat) : (scan_nonspace s).2.length ≤ s.length := by
  induction s with
  | nil => simp [scan_nonspace]
  | cons c cs ih =>
    unfold scan_nonspace
    split
    · simp
    · simp; omega

theorem scan_digits_length_le (s : List Nat) :
    ∀ acc : Nat, (scan_digits acc s).2.length ≤ s.length := by
  induction s with
  | nil => intro acc; simp [scan_digits]
  | cons c cs ih =>
    intro acc
    unfold scan_digits
    split
    · have := ih (10 * acc + (c - 48)); simp; omega
    · simp

theorem scan_int_length_le (s : List Nat) : (scan_int s).2.length ≤ s.length := by
  have h0 := skip_space_length_le s
  unfold scan_int
  cases hs : skip_space s with
  | nil => simp
  | cons c cs =>
    rw [hs] at h0
    simp only [List.length_cons] at h0
    simp only []
    by_cases hc : c = 45 ∨ c = 43
    · rw [if_pos hc]
      cases cs with
      | nil => simp
      | cons d ds =>
        simp only []
        by_cases hd : isdigit d = true
        · rw [if_pos hd]
          have := scan_digits_length_le (d :: ds) 0
          simp only [List.length_cons] at this h0 ⊢
          omega
        · rw [if_neg hd]
          simp only [List.length_cons] at h0 ⊢
          omega
    · rw [if_neg hc]
      by_cases hd : isdigit c = true
      · rw [if_pos hd]
        have := scan_digits_length_le (c :: cs) 0
        simp only [List.length_cons] at this ⊢
        omega
      · rw [if_neg hd]
        simp only [List.length_cons]
        omega

theorem skip_space_head (s : List Nat) :
    ∀ (c : Nat) (cs : List Nat), skip_space s = c :: cs → isspace c = false := by
  induction s with
  | nil => intro c cs h; simp [skip_space] at h
  | cons x xs ih =>
    intro c cs h
    unfold skip_space at h
    by_cases hx : isspace x = true
    · rw [if_pos hx] at h
      exact ih c cs h
    · rw [if_neg hx] at h
      cases h
      simpa using hx

theorem scan_word_length_lt (s w r : List Nat) (h : scan_word s = (some w, r)) :
    r.length < s.length := by
  have h0 := skip_space_length_le s
  unfold scan_word at h
  cases hs : skip_space s with
  | nil => rw [hs] at h; simp at h
  | cons c cs =>
    rw [hs] at h h0
    simp only [Prod.mk.injEq, Option.some.injEq] at h
    have hc := skip_space_head s c cs hs
    have h1 := scan_nonspace_length_le cs
    have h2 : (scan_nonspace (c :: cs)).2 = (scan_nonspace cs).2 := by
      simp [scan_nonspace, hc]
    rw [h2] at h
    rw [h.2] at h1
    simp only [List.length_cons] at h0
    omega

/-- The loading loop never uses up a fuel above the length of its input: its
result does not depend on the fuel it is given beyond that. -/
theorem load_loop_fuel (fuel1 : Nat) :
    ∀ (fuel2 : Nat) (vocab : Vocabulary) (s : List Nat),
      s.length < fuel1 → s.length < fuel2 →
      load_loop fuel1 vocab s = load_loop fuel2 vocab s := by
  induction fuel1 with
  | zero => intro fuel2 vocab s h1; omega
  | succ f1 ih =>
    intro fuel2 vocab s h1 h2
    obtain ⟨f2, rfl⟩ : ∃ f, fuel2 = f + 1 := ⟨fuel2 - 1, by omega⟩
    unfold load_loop
    rcases hw : scan_word s with ⟨_ | w, r1⟩
    · rfl
    · have l1 := scan_word_length_lt s w r1 hw
      simp only []
      cases strcpy MAX_WORD_LENGTH w with
      | none => rfl
      | some word =>
        simp only []
        have l2 := scan_int_length_le r1
        rcases hi1 : scan_int r1 with ⟨_ | a, r2⟩
        · rfl
        · rw [hi1] at l2
          simp only [] at l2 ⊢
          have l3 := scan_int_length_le r2
          rcases hi2 : scan_int r2 with ⟨_ | b, r3⟩
          · rfl
          · rw [hi2] at l3
            simp only [] at l3 ⊢
            exact ih f2 _ r3 (by omega) (by omega)

/-! ## Trained vocabularies with a stored token score within the unit interval -/

theorem nonneg_train_chain (is_spam : Bool) (w : List Nat) (chain : List HashNode)
    (h : ∀ n ∈ chain, 0 ≤ n.spam_count ∧ 0 ≤ n.ham_count) :
    ∀ m ∈ train_chain is_spam w chain, 0 ≤ m.spam_count ∧ 0 ≤ m.ham_count := by
  induction chain with
  | nil =>
    intro m hm
    simp only [train_chain, List.mem_singleton] at hm
    subst hm
    cases is_spam <;> simp [count_update, create_hash_node]
  | cons n rest ih =>
    intro m hm
    have hn := h n (List.mem_cons_self _ _)
    have hrest : ∀ x ∈ rest, 0 ≤ x.spam_count ∧ 0 ≤ x.ham_count :=
      fun x hx => h x (List.mem_cons_of_mem _ hx)
    unfold train_chain at hm
    by_cases e : n.word = w
    · rw [if_pos e] at hm
      rcases List.mem_cons.mp hm with rfl | hm1
      · cases is_spam <;> simp only [count_update] <;> constructor <;> simp <;> omega
      · exact hrest m hm1
    · rw [if_neg e] at hm
      rcases List.mem_cons.mp hm with rfl | hm1
      · exact hn
      · exact ih hrest m hm1

theorem countsNonneg_train_token (vocab : Vocabulary) (is_spam : Bool) (w : List Nat)
    (h : CountsNonneg vocab) : CountsNonneg (train_token vocab is_spam w) := by
  obtain ⟨h1, h2, h3⟩ := h
  refine ⟨?_, ?_, ?_⟩
  · intro i n hn
    simp only [train_token, setBucket] at hn
    by_cases hi : i = hash w
    · rw [if_pos hi] at hn
      exact nonneg_train_chain is_spam w _ (h1 _) n hn
    · rw [if_neg hi] at hn
      exact h1 i n hn
  · cases is_spam <;> simp only [train_token] <;> simp <;> omega
  · cases is_spam <;> simp only [train_token] <;> simp <;> omega

theorem countsNonneg_train_tokens (is_spam : Bool) (toks : List (List Nat)) :
    ∀ vocab : Vocabulary, CountsNonneg vocab →
      CountsNonneg (train_tokens vocab is_spam toks) := by
  induction toks with
  | nil => intro vocab h; exact h
  | cons t ts ih =>
    intro vocab h
    exact ih _ (countsNonneg_train_token vocab is_spam t h)

theorem countsNonneg_of_trained (vocab : Vocabulary) (h : Trained vocab) :
    CountsNonneg vocab := by
  induction h with
  | init =>
    refine ⟨?_, le_refl _, le_refl _⟩
    intro i n hn
    simp [init_vocabulary] at hn
  | train v v1 email is_spam _ htrain ih =>
    have hfit := fitsBuffers_of_train v v1 email is_spam htrain
    rw [train_classifier_eq v email is_spam hfit] at htrain
    cases htrain
    have := countsNonneg_train_tokens is_spam (tokens email) v ih
    cases is_spam <;> exact this

theorem counts_of_nonneg (vocab : Vocabulary) (h : CountsNonneg vocab) (t : List Nat) :
    0 ≤ spam_count_of vocab t ∧ 0 ≤ ham_count_of vocab t := by
  unfold spam_count_of ham_count_of
  cases hf : find_node vocab t with
  | none => exact ⟨le_refl _, le_refl _⟩
  | some n =>
    unfold find_node at hf
    exact h.1 _ n (List.mem_of_find?_eq_some hf)

/-- In a vocabulary built by training that stores at least one token, a text
within the buffer limits is scored by a real number between 0 and 1. -/
theorem probability_in_unit_interval (vocab : Vocabulary) (email : List Nat)
    (h : Trained vocab) (hV : 0 < get_vocabulary_size vocab) (hfit : fitsBuffers email) :
    ∃ p : ℝ, calculate_probability vocab email = some p ∧ 0 ≤ p ∧ p ≤ 1 := by
  have hc := countsNonneg_of_trained vocab h
  by_cases h0 : vocab.total_spam_emails = 0 ∨ vocab.total_ham_emails = 0
  · refine ⟨0.5, ?_, by norm_num, by norm_num⟩
    unfold calculate_probability
    rw [if_pos h0]
  · by_cases hne : tokens email = []
    · refine ⟨0.5, ?_, by norm_num, by norm_num⟩
      unfold calculate_probability
      rw [if_neg h0]
      simp only [strcpy, hfit.1, if_true]
      rw [score_loop_eq vocab _ _ _ hfit.2]
      have e : (List.filter (fun w => decide (w.length > 2))
          (List.map clean_word (strtok_all email))) = [] := hne
      rw [e]
      simp [score_tokens]
    · have hemails : 0 ≤ vocab.total_spam_emails ∧ 0 ≤ vocab.total_ham_emails := by
        clear h0 hne hV hc
        induction h with
        | init => exact ⟨le_refl _, le_refl _⟩
        | train v v1 em is_spam _ htrain ih =>
          have hf := fitsBuffers_of_train v v1 em is_spam htrain
          rw [train_classifier_eq v em is_spam hf] at htrain
          cases htrain
          have e1 := emails_of_train_tokens true is_spam (tokens em) v
          have e2 := emails_of_train_tokens false is_spam (tokens em) v
          simp only [emails_of, if_true, Bool.false_eq_true, if_false] at e1 e2
          cases is_spam <;> simp only [count_email, Bool.false_eq_true, if_false, if_true] <;>
            constructor <;> omega
      have hs : 0 < vocab.total_spam_emails := by
        rcases hemails with ⟨a, _⟩
        exact lt_of_le_of_ne a (fun e => h0 (Or.inl e.symm))
      have hh : 0 < vocab.total_ham_emails := by
        rcases hemails with ⟨_, b⟩
        exact lt_of_le_of_ne b (fun e => h0 (Or.inr e.symm))
      have hV1 : (0 : Int) < (get_vocabulary_size vocab : Int) := by exact_mod_cast hV
      have hdef : ScoringDefined vocab (tokens email) :=
        ⟨by have := hc.2.1; omega, by have := hc.2.2; omega,
          fun t _ => counts_of_nonneg vocab hc t⟩
      have hS := spam_score_pos _ _ hs hh hdef
      have hH := ham_score_pos _ _ hs hh hdef
      exact ⟨_, calculate_probability_eq vocab email hs hh hfit hne hdef,
        le_of_lt (bayes_posterior_pos _ _ hS hH), le_of_lt (bayes_posterior_lt_one _ _ hS hH)⟩

/-! ## The vocabulary with a negative count comes from a model file -/

/-- Loading the model file `"1 1 3 3\nfree -3 4\n"` gives the totals and the
single node of `vocab_negative_count`. -/
theorem load_model_negative_count :
    (load_model init_vocabulary (some (bytes "1 1 3 3\nfree -3 4\n"))).map
        (fun v => [v.total_spam_emails, v.total_ham_emails, v.total_spam_words,
          v.total_ham_words, (get_vocabulary_size v : Int)]) =
      some [vocab_negative_count.total_spam_emails, vocab_negative_count.total_ham_emails,
        vocab_negative_count.total_spam_words, vocab_negative_count.total_ham_words,
        (get_vocabulary_size vocab_negative_count : Int)] ∧
    (load_model init_vocabulary (some (bytes "1 1 3 3\nfree -3 4\n"))).map
        (fun v => v.table (hash (bytes "free"))) =
      some (vocab_negative_count.table (hash (bytes "free"))) := by
  decide

/-! ## The email count, cleaning, and the reset of `load_model` -/

/-- C11: for a text within the buffer limits, `train_classifier` returns a
vocabulary in which the email count of the given label has grown by exactly
one and the email count of the other label is unchanged; when the text has no
qualifying token, the table and both word totals are unchanged. -/
theorem train_counts_one_email (vocab : Vocabulary) (email : List Nat) (is_spam : Bool)
    (hfit : fitsBuffers email) :
    ∃ v1 : Vocabulary,
      train_classifier vocab email is_spam = some v1 ∧
      emails_of is_spam v1 = emails_of is_spam vocab + 1 ∧
      emails_of (!is_spam) v1 = emails_of (!is_spam) vocab ∧
      (tokens email = [] →
        v1.table = vocab.table ∧
        v1.total_spam_words = vocab.total_spam_words ∧
        v1.total_ham_words = vocab.total_ham_words) := by
  refine ⟨_, train_classifier_eq vocab email is_spam hfit, ?_, ?_, ?_⟩
  · rw [emails_of_count_email, emails_of_train_tokens]
  · have := emails_of_train_tokens (!is_spam) is_spam (tokens email) vocab
    cases is_spam <;> simp only [emails_of, count_email] at this ⊢ <;> simpa using this
  · intro h0
    rw [h0]
    cases is_spam <;> exact ⟨rfl, rfl, rfl⟩

/-- Witness of C11 at the two-email vocabulary and the token-less text `"a to, ?! it"`. -/
theorem train_counts_one_email_witness :
    fitsBuffers (bytes "a to, ?! it") ∧
    ∃ v1 : Vocabulary,
      train_classifier vocab_two_emails (bytes "a to, ?! it") false = some v1 ∧
      emails_of false v1 = emails_of false vocab_two_emails + 1 ∧
      emails_of (!false) v1 = emails_of (!false) vocab_two_emails ∧
      (tokens (bytes "a to, ?! it") = [] →
        v1.table = vocab_two_emails.table ∧
        v1.total_spam_words = vocab_two_emails.total_spam_words ∧
        v1.total_ham_words = vocab_two_emails.total_ham_words) :=
  ⟨by decide, train_counts_one_email vocab_two_emails (bytes "a to, ?! it") false (by decide)⟩

theorem clean_word_of_lower_alnum (s : List Nat) (h : ∀ c ∈ s, isLowerAlnum c = true) :
    clean_word s = s := by
  induction s with
  | nil => rfl
  | cons c cs ih =>
    have hc : isLowerAlnum c = true := h c (List.mem_cons_self _ _)
    simp only [isLowerAlnum, Bool.or_eq_true, Bool.and_eq_true, decide_eq_true_eq] at hc
    have h1 : isalnum c = true := by
      simp only [isalnum, Bool.or_eq_true, Bool.and_eq_true, decide_eq_true_eq]
      omega
    have h2 : tolower c = c := by
      unfold tolower
      rw [if_neg (by omega)]
    rw [clean_word, if_pos h1, h2, ih (fun x hx => h x (List.mem_cons_of_mem _ hx))]

theorem lower_alnum_clean_word (w : List Nat) : ∀ c ∈ clean_word w, isLowerAlnum c = true := by
  induction w with
  | nil => intro c hc; simp [clean_word] at hc
  | cons x xs ih =>
    intro c hc
    unfold clean_word at hc
    by_cases hx : isalnum x = true
    · rw [if_pos hx] at hc
      rcases List.mem_cons.mp hc with rfl | h
      · simp only [isalnum, Bool.or_eq_true, Bool.and_eq_true, decide_eq_true_eq] at hx
        simp only [isLowerAlnum, tolower, Bool.or_eq_true, Bool.and_eq_true, decide_eq_true_eq]
        split <;> omega
      · exact ih c h
    · rw [if_neg hx] at hc
      exact ih c hc

/-- C13: `clean_word` leaves a string of lowercase ASCII letters and digits
unchanged, and applied to its own output (on any word) it returns that
output. -/
theorem clean_word_idempotent (s w : List Nat) (h : ∀ c ∈ s, isLowerAlnum c = true) :
    clean_word s = s ∧ clean_word (clean_word w) = clean_word w :=
  ⟨clean_word_of_lower_alnum s h,
    clean_word_of_lower_alnum (clean_word w) (lower_alnum_clean_word w)⟩

/-- Witness of C13 at `"meeting"` and the raw word `"Mee-Ting!"`. -/
theorem clean_word_idempotent_witness :
    (∀ c ∈ bytes "meeting", isLowerAlnum c = true) ∧
    (clean_word (bytes "meeting") = bytes "meeting" ∧
      clean_word (clean_word (bytes "Mee-Ting!")) = clean_word (bytes "Mee-Ting!")) :=
  ⟨by decide, clean_word_idempotent (bytes "meeting") (bytes "Mee-Ting!") (by decide)⟩

/-- C16: `load_model` replaces the vocabulary: whatever two vocabularies a
model file is loaded into, the result is the same, the one of loading it into
the freshly initialised vocabulary. -/
theorem load_model_replaces (content : List Nat) (v1 v2 : Vocabulary) :
    load_model v1 (some content) = load_model v2 (some content) ∧
      load_model v1 (some content) = load_model init_vocabulary (some content) :=
  ⟨rfl, rfl⟩

/-! ## Overlong input and zero denominators -/

/-- A text or raw word that does not fit its buffer leaves `train_classifier`
without a defined result: nothing is truncated or rejected. -/
theorem train_classifier_none_of_overflow (vocab : Vocabulary) (email : List Nat)
    (is_spam : Bool) (h : ¬ fitsBuffers email) :
    train_classifier vocab email is_spam = none := by
  cases hr : train_classifier vocab email is_spam with
  | none => rfl
  | some v1 => exact absurd (fitsBuffers_of_train vocab v1 email is_spam hr) h

theorem score_loop_none_of_long (vocab : Vocabulary) (vocab_size : Nat)
    (ws : List (List Nat)) :
    ∀ st : ScoreState, (∃ w ∈ ws, ¬ w.length < MAX_WORD_LENGTH) →
      score_loop vocab vocab_size st ws = none := by
  induction ws with
  | nil => intro st h; obtain ⟨w, hw, _⟩ := h; simp at hw
  | cons x xs ih =>
    intro st h
    by_cases hx : x.length < MAX_WORD_LENGTH
    · have hrest : ∃ w ∈ xs, ¬ w.length < MAX_WORD_LENGTH := by
        obtain ⟨w, hw, hlong⟩ := h
        rcases List.mem_cons.mp hw with rfl | hmem
        · exact absurd hx hlong
        · exact ⟨w, hmem, hlong⟩
      unfold score_loop score_word
      simp only [strcpy, hx, if_true]
      split
      · rfl
      · exact ih _ hrest
    · unfold score_loop score_word
      simp only [strcpy, hx, if_false]

/-- With both email counts non-zero, a text or raw word that does not fit its
buffer leaves `calculate_probability` without a defined result. -/
theorem calculate_probability_none_of_overflow (vocab : Vocabulary) (email : List Nat)
    (hs : vocab.total_spam_emails ≠ 0) (hh : vocab.total_ham_emails ≠ 0)
    (h : ¬ fitsBuffers email) : calculate_probability vocab email = none := by
  unfold calculate_probability
  rw [if_neg (by intro h0; rcases h0 with h0 | h0; exact hs h0; exact hh h0)]
  by_cases h1 : email.length < MAX_EMAIL_LENGTH
  · have h2 : ∃ w ∈ strtok_all email, ¬ w.length < MAX_WORD_LENGTH := by
      by_contra hcon
      push_neg at hcon
      exact h ⟨h1, hcon⟩
    simp only [strcpy, h1, if_true]
    rw [score_loop_none_of_long vocab _ _ _ h2]
  · simp only [strcpy, h1, if_false]

/-- C18 at its failing input: the text made of one word of 50 letters is no
longer than an email may be, `strtok` returns it whole, the copy into the
50-byte word buffer does not fit, and neither `train_classifier` nor
`calculate_probability` truncates or rejects it: both write past the buffer
and have no defined result. -/
theorem overlong_word_overflows :
    text_long_word.length < MAX_EMAIL_LENGTH ∧
    strtok_all text_long_word = [text_long_word] ∧
    text_long_word.length = MAX_WORD_LENGTH ∧
    strcpy MAX_WORD_LENGTH text_long_word = none ∧
    train_classifier vocab_two_emails text_long_word true = none ∧
    calculate_probability vocab_two_emails text_long_word = none :=
  ⟨by decide, by decide, by decide, by decide,
    train_classifier_none_of_overflow _ _ _ (by decide),
    calculate_probability_none_of_overflow _ _ (by decide) (by decide) (by decide)⟩

/-- C20 at its failing input: the vocabulary trained with the spam email
`"hi"` and the ham email `"ok"` is reachable and has both email counts
positive, the text `"free money"` has qualifying tokens, and both smoothing
denominators are zero, so that both likelihoods of the token `"free"` are
computed by dividing `1.0` by zero. -/
theorem zero_denominators_without_tokens :
    Trained vocab_no_tokens ∧
    0 < vocab_no_tokens.total_spam_emails ∧ 0 < vocab_no_tokens.total_ham_emails ∧
    tokens (bytes "free money") ≠ [] ∧
    vocab_no_tokens.total_spam_words + (get_vocabulary_size vocab_no_tokens : Int) = 0 ∧
    vocab_no_tokens.total_ham_words + (get_vocabulary_size vocab_no_tokens : Int) = 0 ∧
    word_likelihoods vocab_no_tokens (get_vocabulary_size vocab_no_tokens) (bytes "free") =
      (none, none) := by
  have h1 : vocab_no_tokens.total_spam_words +
      (get_vocabulary_size vocab_no_tokens : Int) = 0 := by decide
  have h2 : vocab_no_tokens.total_ham_words +
      (get_vocabulary_size vocab_no_tokens : Int) = 0 := by decide
  refine ⟨trained_vocab_no_tokens, by decide, by decide, by decide, h1, h2, ?_⟩
  unfold word_likelihoods
  cases find_node vocab_no_tokens (bytes "free") <;> simp [h1, h2, fdiv]

/-! ## The tokenizer against its reference -/

theorem clean_word_eq_reference (w : List Nat) : clean_word w = reference_clean w := by
  induction w with
  | nil => rfl
  | cons c cs ih =>
    unfold clean_word reference_clean
    by_cases h : isalnum c = true
    · simp only [h, if_true, List.filter_cons_of_pos, List.map_cons]
      rw [ih]; rfl
    · simp only [h, if_false]
      rw [List.filter_cons_of_neg h, ih]; rfl

theorem strtokFrom_eq_splitOnP (s : List Nat) :
    ∀ cur : List Nat, strtokFrom cur s =
      ((s.splitOnP isDelim).modifyHead (fun x => cur ++ x)).filter
        (fun w => decide (w ≠ [])) := by
  induction s with
  | nil =>
    intro cur
    by_cases h : cur = []
    · simp [strtokFrom, h, List.splitOnP_nil]
    · simp [strtokFrom, h, List.splitOnP_nil]
  | cons c cs ih =>
    intro cur
    rw [List.splitOnP_cons]
    by_cases hc : isDelim c = true
    · have h0 := ih []
      simp only [List.nil_append] at h0
      have hid : (List.splitOnP isDelim cs).modifyHead (fun x => x) =
          List.splitOnP isDelim cs := by
        cases List.splitOnP isDelim cs <;> rfl
      rw [hid] at h0
      by_cases h : cur = []
      · simp [strtokFrom, hc, h, h0]
      · simp [strtokFrom, hc, h, h0]
    · have h1 := ih (cur ++ [c])
      simp only [strtokFrom, hc, if_false, Bool.false_eq_true]
      rw [h1, List.modifyHead_modifyHead]
      congr 2
      funext x
      simp

theorem strtok_all_eq_splitOnP (s : List Nat) :
    strtok_all s = (s.splitOnP isDelim).filter (fun w => decide (w ≠ [])) := by
  unfold strtok_all
  rw [strtokFrom_eq_splitOnP]
  congr 1
  cases List.splitOnP isDelim s <;> rfl

theorem tokens_eq_reference (email : List Nat) : tokens email = reference_tokens email := by
  unfold tokens reference_tokens
  rw [strtok_all_eq_splitOnP]
  have e : clean_word = reference_clean := funext clean_word_eq_reference
  rw [e]
  congr 1
  funext t
  by_cases h : t.length ≤ 2
  · have : ¬ t.length > 2 := by omega
    simp [h, this]
  · have : t.length > 2 := by omega
    simp [h, this]

/-- C12: for a text within the buffer limits, the training loop and the
scoring loop both apply their per-token step to the same sequence, the
reference tokenization of the text: split on space, tab, newline and carriage
return into non-empty raw words, clean each, discard the results of length at
most 2. -/
theorem loops_process_reference_tokens (vocab : Vocabulary) (email : List Nat)
    (is_spam : Bool) (vocab_size : Nat) (st : ScoreState) (hfit : fitsBuffers email) :
    train_classifier vocab email is_spam =
      some (count_email (train_tokens vocab is_spam (reference_tokens email)) is_spam) ∧
    score_loop vocab vocab_size st (strtok_all email) =
      some (score_tokens vocab vocab_size st (reference_tokens email)) ∧
    tokens email = reference_tokens email := by
  refine ⟨?_, ?_, tokens_eq_reference email⟩
  · rw [← tokens_eq_reference]
    exact train_classifier_eq vocab email is_spam hfit
  · rw [← tokens_eq_reference]
    exact score_loop_eq vocab vocab_size _ st hfit.2

/-- Witness of C12 at the two-email vocabulary and the text `"Win, FREE  money\tto-day a1!"`. -/
theorem loops_process_reference_tokens_witness :
    fitsBuffers (bytes "Win, FREE  money\tto-day a1!") ∧
    reference_tokens (bytes "Win, FREE  money\tto-day a1!") =
      [bytes "win", bytes "free", bytes "money", bytes "today"] ∧
    (train_classifier vocab_two_emails (bytes "Win, FREE  money\tto-day a1!") true =
      some (count_email (train_tokens vocab_two_emails true
        (reference_tokens (bytes "Win, FREE  money\tto-day a1!"))) true) ∧
    score_loop vocab_two_emails 13
        { log_prob_spam := some 0, log_prob_ham := some 0, words_processed := 0 }
        (strtok_all (bytes "Win, FREE  money\tto-day a1!")) =
      some (score_tokens vocab_two_emails 13
        { log_prob_spam := some 0, log_prob_ham := some 0, words_processed := 0 }
        (reference_tokens (bytes "Win, FREE  money\tto-day a1!"))) ∧
    tokens (bytes "Win, FREE  money\tto-day a1!") =
      reference_tokens (bytes "Win, FREE  money\tto-day a1!")) :=
  ⟨by decide, by decide,
    loops_process_reference_tokens vocab_two_emails (bytes "Win, FREE  money\tto-day a1!")
      true 13 { log_prob_spam := some 0, log_prob_ham := some 0, words_processed := 0 }
      (by decide)⟩

/-! ## Loading files that `save_model` did not write -/

theorem load_loop_totals (fuel : Nat) :
    ∀ (vocab v1 : Vocabulary) (s : List Nat), load_loop fuel vocab s = some v1 →
      v1.total_spam_emails = vocab.total_spam_emails ∧
      v1.total_ham_emails = vocab.total_ham_emails ∧
      v1.total_spam_words = vocab.total_spam_words ∧
      v1.total_ham_words = vocab.total_ham_words := by
  induction fuel with
  | zero =>
    intro vocab v1 s h
    simp only [load_loop, Option.some.injEq] at h
    subst h
    exact ⟨rfl, rfl, rfl, rfl⟩
  | succ f ih =>
    intro vocab v1 s h
    unfold load_loop at h
    rcases hw : scan_word s with ⟨_ | w, r1⟩
    · rw [hw] at h
      simp only [Option.some.injEq] at h
      subst h
      exact ⟨rfl, rfl, rfl, rfl⟩
    · rw [hw] at h
      simp only [] at h
      cases hc : strcpy MAX_WORD_LENGTH w with
      | none => rw [hc] at h; simp at h
      | some word =>
        rw [hc] at h
        simp only [] at h
        rcases hi1 : scan_int r1 with ⟨_ | a, r2⟩
        · rw [hi1] at h
          simp only [Option.some.injEq] at h
          subst h
          exact ⟨rfl, rfl, rfl, rfl⟩
        · rw [hi1] at h
          simp only [] at h
          rcases hi2 : scan_int r2 with ⟨_ | b, r3⟩
          · rw [hi2] at h
            simp only [Option.some.injEq] at h
            subst h
            exact ⟨rfl, rfl, rfl, rfl⟩
          · rw [hi2] at h
            simp only [] at h
            exact ih (load_entry vocab word a b) v1 r3 h

/-- The totals `load_model` returns are those it read from the header: the
entries do not enter them. -/
theorem load_model_totals (v2 v1 : Vocabulary) (content : List Nat)
    (h : load_model v2 (some content) = some v1) :
    v1.total_spam_emails = (load_header content).1.total_spam_emails ∧
    v1.total_ham_emails = (load_header content).1.total_ham_emails ∧
    v1.total_spam_words = (load_header content).1.total_spam_words ∧
    v1.total_ham_words = (load_header content).1.total_ham_words :=
  load_loop_totals _ _ v1 _ h

theorem sum_single_bucket (f : List HashNode → Int) (hf : f [] = 0) (k : Nat)
    (chain : List HashNode) (hk : k < TABLE_SIZE) :
    ((List.range TABLE_SIZE).map (fun i => f (setBucket (fun _ => []) k chain i))).sum =
      f chain := by
  rw [sum_range_setBucket f (fun _ => []) k chain TABLE_SIZE, if_pos hk]
  simp [hf]

/-- C14 as stated fails: after `load_model` has read the model file
`"1 1 5 5\nfree 1 0\n"`, `total_spam_words` and `total_ham_words` are the 5 and
5 of the header while the counts of the single stored entry sum to 1 and 0. -/
theorem load_totals_counterexample :
    ∃ v1 : Vocabulary,
      load_model init_vocabulary (some file_inconsistent_header) = some v1 ∧
      v1.total_spam_words = 5 ∧ sum_spam_counts v1 = 1 ∧
      v1.total_ham_words = 5 ∧ sum_ham_counts v1 = 0 := by
  refine ⟨vocab_inconsistent, rfl, rfl, ?_, rfl, ?_⟩
  · unfold sum_spam_counts vocab_inconsistent
    rw [sum_single_bucket (fun c => (c.map HashNode.spam_count).sum) rfl _ _ (hash_lt _)]
    rfl
  · unfold sum_ham_counts vocab_inconsistent
    rw [sum_single_bucket (fun c => (c.map HashNode.ham_count).sum) rfl _ _ (hash_lt _)]
    rfl

theorem sums_eq_of_table_eq (v1 v : Vocabulary)
    (h : ∀ i : Nat, i < TABLE_SIZE → v1.table i = v.table i) :
    sum_spam_counts v1 = sum_spam_counts v ∧ sum_ham_counts v1 = sum_ham_counts v := by
  unfold sum_spam_counts sum_ham_counts
  constructor
  · congr 1
    apply List.map_congr_left
    intro i hi
    rw [h i (List.mem_range.mp hi)]
  · congr 1
    apply List.map_congr_left
    intro i hi
    rw [h i (List.mem_range.mp hi)]

/-- C14, amended: after `load_model` has read the model file that `save_model`
wrote for a vocabulary built by training, `total_spam_words` equals the sum of
`spam_count` over all stored entries and `total_ham_words` the sum of
`ham_count`. -/
theorem load_saved_totals_match (vocab v2 : Vocabulary) (h : Trained vocab) :
    ∃ v1 : Vocabulary, load_model v2 (some (save_model vocab)) = some v1 ∧
      v1.total_spam_words = sum_spam_counts v1 ∧
      v1.total_ham_words = sum_ham_counts v1 := by
  obtain ⟨v1, hload, _, _, h3, h4, htab⟩ :=
    load_model_save_model vocab v2 (stored_of_trained vocab h)
  have hsum := sums_eq_of_table_eq v1 vocab (by
    intro i hi
    rw [htab]
    simp only [hi, if_true])
  have hm := totalsMatch_of_trained vocab h
  exact ⟨v1, hload, by rw [h3, hsum.1]; exact hm.1, by rw [h4, hsum.2]; exact hm.2⟩

/-- Witness of amended C14: the two-email vocabulary saved and loaded. -/
theorem load_saved_totals_match_witness :
    Trained vocab_two_emails ∧
    ∃ v1 : Vocabulary, load_model init_vocabulary (some (save_model vocab_two_emails)) = some v1 ∧
      v1.total_spam_words = sum_spam_counts v1 ∧
      v1.total_ham_words = sum_ham_counts v1 :=
  ⟨trained_vocab_two_emails,
    load_saved_totals_match vocab_two_emails init_vocabulary trained_vocab_two_emails⟩

/-! ## A malformed entry line stops the loading loop -/

theorem load_loop_succ (fuel : Nat) (vocab : Vocabulary) (s : List Nat) :
    load_loop (fuel + 1) vocab s =
      match scan_word s with
      | (none, _) => some vocab
      | (some w, r1) =>
        match strcpy MAX_WORD_LENGTH w with
        | none => none
        | some word =>
          match scan_int r1 with
          | (none, _) => some vocab
          | (some spam_count, r2) =>
            match scan_int r2 with
            | (none, _) => some vocab
            | (some ham_count, r3) =>
              load_loop fuel (load_entry vocab word spam_count ham_count) r3 := rfl

theorem placed_train_token (vocab : Vocabulary) (is_spam : Bool) (w : List Nat)
    (h : Placed vocab) : Placed (train_token vocab is_spam w) := by
  obtain ⟨h1, h2⟩ := h
  refine ⟨?_, ?_⟩
  · intro i n hn
    simp only [train_token, setBucket] at hn
    by_cases hi : i = hash w
    · rw [if_pos hi] at hn
      rcases mem_train_chain _ _ _ n hn with e | ⟨m1, hm1, e⟩
      · rw [e]; exact hi.symm
      · rw [← e, hi]; exact h1 _ m1 hm1
    · rw [if_neg hi] at hn
      exact h1 i n hn
  · intro i
    simp only [train_token, setBucket]
    by_cases hi : i = hash w
    · rw [if_pos hi, map_word_train_chain]
      by_cases hm : w ∈ (vocab.table (hash w)).map HashNode.word
      · rw [if_pos hm]; exact h2 _
      · rw [if_neg hm]
        refine List.Nodup.append (h2 _) (List.nodup_singleton _) ?_
        intro a ha hb
        simp only [List.mem_singleton] at hb
        exact hm (hb ▸ ha)
    · rw [if_neg hi]; exact h2 i

theorem placed_train_tokens (is_spam : Bool) (toks : List (List Nat)) :
    ∀ vocab : Vocabulary, Placed vocab → Placed (train_tokens vocab is_spam toks) := by
  induction toks with
  | nil => intro vocab h; exact h
  | cons t ts ih =>
    intro vocab h
    exact ih _ (placed_train_token vocab is_spam t h)

theorem placed_of_train (v v1 : Vocabulary) (email : List Nat) (is_spam : Bool)
    (h : Placed v) (htrain : train_classifier v email is_spam = some v1) : Placed v1 := by
  have hfit := fitsBuffers_of_train v v1 email is_spam htrain
  rw [train_classifier_eq v email is_spam hfit] at htrain
  cases htrain
  have := placed_train_tokens is_spam (tokens email) v h
  cases is_spam <;> exact this

theorem map_word_load_chain (w : List Nat) (a b : Int) (chain : List HashNode) :
    (load_chain w a b chain).map HashNode.word =
      if w ∈ chain.map HashNode.word then chain.map HashNode.word
      else chain.map HashNode.word ++ [w] := by
  induction chain with
  | nil => simp [load_chain, create_hash_node]
  | cons n rest ih =>
    by_cases h : n.word = w
    · simp [load_chain, h]
    · have h2 : ¬ w = n.word := fun e => h e.symm
      rw [load_chain, if_neg h, List.map_cons, ih]
      by_cases hm : w ∈ rest.map HashNode.word
      · simp [hm]
      · simp [hm, h2]

theorem placed_load_entry (vocab : Vocabulary) (w : List Nat) (a b : Int)
    (h : Placed vocab) : Placed (load_entry vocab w a b) := by
  obtain ⟨h1, h2⟩ := h
  have hwords := map_word_load_chain w a b (vocab.table (hash w))
  refine ⟨?_, ?_⟩
  · intro i n hn
    simp only [load_entry, setBucket] at hn
    by_cases hi : i = hash w
    · rw [if_pos hi] at hn
      have hmem : n.word ∈ (load_chain w a b (vocab.table (hash w))).map HashNode.word :=
        List.mem_map_of_mem _ hn
      rw [hwords] at hmem
      by_cases hm : w ∈ (vocab.table (hash w)).map HashNode.word
      · rw [if_pos hm] at hmem
        obtain ⟨m1, hm1, e⟩ := List.mem_map.mp hmem
        rw [← e, hi]; exact h1 _ m1 hm1
      · rw [if_neg hm] at hmem
        rcases List.mem_append.mp hmem with h3 | h3
        · obtain ⟨m1, hm1, e⟩ := List.mem_map.mp h3
          rw [← e, hi]; exact h1 _ m1 hm1
        · simp only [List.mem_singleton] at h3
          rw [h3]; exact hi.symm
    · rw [if_neg hi] at hn
      exact h1 i n hn
  · intro i
    simp only [load_entry, setBucket]
    by_cases hi : i = hash w
    · rw [if_pos hi, hwords]
      by_cases hm : w ∈ (vocab.table (hash w)).map HashNode.word
      · rw [if_pos hm]; exact h2 _
      · rw [if_neg hm]
        refine List.Nodup.append (h2 _) (List.nodup_singleton _) ?_
        intro x ha hb
        simp only [List.mem_singleton] at hb
        exact hm (hb ▸ ha)
    · rw [if_neg hi]; exact h2 i

/-- A property of the store that every loaded entry preserves holds after
the loading loop. -/
theorem load_loop_invariant (P : Vocabulary → Prop)
    (hstep : ∀ (v : Vocabulary) (w : List Nat) (a b : Int), P v → P (load_entry v w a b))
    (fuel : Nat) :
    ∀ (vocab v1 : Vocabulary) (s : List Nat), P vocab →
      load_loop fuel vocab s = some v1 → P v1 := by
  induction fuel with
  | zero =>
    intro vocab v1 s hp h
    simp only [load_loop, Option.some.injEq] at h
    subst h
    exact hp
  | succ f ih =>
    intro vocab v1 s hp h
    rw [load_loop_succ] at h
    rcases hw : scan_word s with ⟨_ | w, r1⟩
    · rw [hw] at h
      simp only [Option.some.injEq] at h
      subst h
      exact hp
    · rw [hw] at h
      simp only [] at h
      cases hc : strcpy MAX_WORD_LENGTH w with
      | none => rw [hc] at h; simp at h
      | some word =>
        rw [hc] at h
        simp only [] at h
        rcases hi1 : scan_int r1 with ⟨_ | a, r2⟩
        · rw [hi1] at h
          simp only [Option.some.injEq] at h
          subst h
          exact hp
        · rw [hi1] at h
          simp only [] at h
          rcases hi2 : scan_int r2 with ⟨_ | b, r3⟩
          · rw [hi2] at h
            simp only [Option.some.injEq] at h
            subst h
            exact hp
          · rw [hi2] at h
            simp only [] at h
            exact ih (load_entry vocab word a b) v1 r3 (hstep vocab word a b hp) h

theorem load_header_table (content : List Nat) : (load_header content).1.table = fun _ => [] := by
  unfold load_header
  rcases scan_int content with ⟨_ | a, r1⟩
  · rfl
  · simp only []
    rcases scan_int r1 with ⟨_ | b, r2⟩
    · rfl
    · simp only []
      rcases scan_int r2 with ⟨_ | c, r3⟩
      · rfl
      · simp only []
        rcases scan_int r3 with ⟨_ | d, r4⟩
        · rfl
        · rfl

theorem placed_of_load (v v1 : Vocabulary) (file : Option (List Nat))
    (h : Placed v) (hload : load_model v file = some v1) : Placed v1 := by
  cases file with
  | none =>
    simp only [load_model, Option.some.injEq] at hload
    subst hload
    exact h
  | some content =>
    unfold load_model at hload
    simp only [] at hload
    refine load_loop_invariant Placed placed_load_entry _ _ v1 _ ?_ hload
    refine ⟨?_, ?_⟩
    · intro i n hn
      rw [load_header_table] at hn
      simp at hn
    · intro i
      rw [load_header_table]
      simp

theorem placed_of_reachable (vocab : Vocabulary) (h : Reachable vocab) : Placed vocab := by
  induction h with
  | init =>
    refine ⟨?_, ?_⟩
    · intro i n hn; simp [init_vocabulary] at hn
    · intro i; simp [init_vocabulary]
  | train v v1 email is_spam _ htrain ih => exact placed_of_train v v1 email is_spam ih htrain
  | load v v1 file _ hload ih => exact placed_of_load v v1 file ih hload

theorem nodes_upto_succ (vocab : Vocabulary) (k : Nat) :
    nodes_upto vocab (k + 1) = nodes_upto vocab k ++ vocab.table k := by
  simp [nodes_upto, List.range_succ]

theorem hash_lt_of_mem_nodes_upto (vocab : Vocabulary) (h : Placed vocab) (k : Nat) :
    ∀ n ∈ nodes_upto vocab k, hash n.word < k := by
  intro n hn
  unfold nodes_upto at hn
  obtain ⟨i, hi, hmem⟩ := List.mem_flatMap.mp hn
  rw [h.1 i n hmem]
  exact List.mem_range.mp hi

theorem nodup_words_upto (vocab : Vocabulary) (h : Placed vocab) (k : Nat) :
    ((nodes_upto vocab k).map HashNode.word).Nodup := by
  induction k with
  | zero => simp [nodes_upto]
  | succ k ih =>
    rw [nodes_upto_succ, List.map_append]
    refine List.Nodup.append ih (h.2 k) ?_
    intro w h1 h2
    obtain ⟨n1, hn1, e1⟩ := List.mem_map.mp h1
    obtain ⟨n2, hn2, e2⟩ := List.mem_map.mp h2
    have l1 := hash_lt_of_mem_nodes_upto vocab h k n1 hn1
    have l2 := h.1 k n2 hn2
    rw [e1] at l1
    rw [e2] at l2
    omega

theorem length_nodes_upto (vocab : Vocabulary) (k : Nat) :
    (nodes_upto vocab k).length = ((List.range k).map (fun i => (vocab.table i).length)).sum := by
  induction k with
  | zero => simp [nodes_upto]
  | succ k ih =>
    rw [nodes_upto_succ, List.length_append, ih, List.range_succ, List.map_append,
      List.sum_append]
    simp

theorem get_vocabulary_size_eq_length (vocab : Vocabulary) :
    get_vocabulary_size vocab = (stored_words vocab).length := by
  unfold get_vocabulary_size stored_words
  rw [List.length_map, length_nodes_upto]

theorem mem_stored_words (vocab : Vocabulary) (w : List Nat) :
    w ∈ stored_words vocab ↔
      ∃ i, i < TABLE_SIZE ∧ w ∈ (vocab.table i).map HashNode.word := by
  unfold stored_words nodes_upto
  constructor
  · intro h
    obtain ⟨n, hn, e⟩ := List.mem_map.mp h
    obtain ⟨i, hi, hmem⟩ := List.mem_flatMap.mp hn
    exact ⟨i, List.mem_range.mp hi, List.mem_map.mpr ⟨n, hmem, e⟩⟩
  · rintro ⟨i, hi, h⟩
    obtain ⟨n, hn, e⟩ := List.mem_map.mp h
    exact List.mem_map.mpr ⟨n, List.mem_flatMap.mpr ⟨i, List.mem_range.mpr hi, hn⟩, e⟩

theorem mem_stored_words_train_token (vocab : Vocabulary) (is_spam : Bool) (t w : List Nat) :
    w ∈ stored_words (train_token vocab is_spam t) ↔ w ∈ stored_words vocab ∨ w = t := by
  rw [mem_stored_words, mem_stored_words]
  constructor
  · rintro ⟨i, hi, h⟩
    simp only [train_token, setBucket] at h
    by_cases e : i = hash t
    · rw [if_pos e, map_word_train_chain] at h
      by_cases hm : t ∈ (vocab.table (hash t)).map HashNode.word
      · rw [if_pos hm] at h
        exact Or.inl ⟨hash t, hash_lt t, h⟩
      · rw [if_neg hm] at h
        rcases List.mem_append.mp h with h1 | h1
        · exact Or.inl ⟨hash t, hash_lt t, h1⟩
        · exact Or.inr (by simpa using h1)
    · rw [if_neg e] at h
      exact Or.inl ⟨i, hi, h⟩
  · rintro (⟨i, hi, h⟩ | rfl)
    · refine ⟨i, hi, ?_⟩
      simp only [train_token, setBucket]
      by_cases e : i = hash t
      · rw [if_pos e, map_word_train_chain]
        rw [e] at h
        by_cases hm : t ∈ (vocab.table (hash t)).map HashNode.word
        · rw [if_pos hm]; exact h
        · rw [if_neg hm]; exact List.mem_append_left _ h
      · rw [if_neg e]; exact h
    · refine ⟨hash w, hash_lt w, ?_⟩
      simp only [train_token, setBucket, if_true]
      rw [map_word_train_chain]
      by_cases hm : w ∈ (vocab.table (hash w)).map HashNode.word
      · rw [if_pos hm]; exact hm
      · rw [if_neg hm]; simp

theorem mem_stored_words_train_tokens (is_spam : Bool) (toks : List (List Nat)) (w : List Nat) :
    ∀ vocab : Vocabulary, w ∈ stored_words (train_tokens vocab is_spam toks) ↔
      w ∈ stored_words vocab ∨ w ∈ toks := by
  induction toks with
  | nil => intro vocab; simp [train_tokens]
  | cons t ts ih =>
    intro vocab
    have := ih (train_token vocab is_spam t)
    simp only [train_tokens, List.foldl_cons] at this ⊢
    rw [this, mem_stored_words_train_token, List.mem_cons]
    exact or_assoc

theorem stored_words_count_email (vocab : Vocabulary) (is_spam : Bool) :
    stored_words (count_email vocab is_spam) = stored_words vocab := by
  cases is_spam <;> rfl

theorem mem_stored_words_of_trainedWith (toks : List (List Nat)) (vocab : Vocabulary)
    (h : TrainedWith toks vocab) (w : List Nat) : w ∈ stored_words vocab ↔ w ∈ toks := by
  induction h with
  | init =>
    have e : ∀ k, nodes_upto init_vocabulary k = [] := by
      intro k
      induction k with
      | zero => rfl
      | succ k ih => rw [nodes_upto_succ, ih]; rfl
    unfold stored_words
    rw [e]
    simp
  | train toks v v1 email is_spam _ htrain ih =>
    have hfit := fitsBuffers_of_train v v1 email is_spam htrain
    rw [train_classifier_eq v email is_spam hfit] at htrain
    cases htrain
    rw [stored_words_count_email, mem_stored_words_train_tokens, ih, List.mem_append]

theorem reachable_of_trainedWith (toks : List (List Nat)) (vocab : Vocabulary)
    (h : TrainedWith toks vocab) : Reachable vocab := by
  induction h with
  | init => exact Reachable.init
  | train toks v v1 email is_spam _ htrain ih => exact Reachable.train v v1 email is_spam ih htrain

/-- C17: in every vocabulary reachable from `init_vocabulary` by
`train_classifier` and `load_model` calls, no two stored nodes carry the same
word and `get_vocabulary_size` is the number of distinct words stored; when the
vocabulary was built by training only, that is the number of distinct tokens
of the training texts. -/
theorem stored_words_distinct (vocab : Vocabulary) (h : Reachable vocab) :
    (stored_words vocab).Nodup ∧
    get_vocabulary_size vocab = (stored_words vocab).toFinset.card ∧
    ∀ toks : List (List Nat), TrainedWith toks vocab →
      get_vocabulary_size vocab = toks.toFinset.card := by
  have hnd : (stored_words vocab).Nodup :=
    nodup_words_upto vocab (placed_of_reachable vocab h) TABLE_SIZE
  have hcard : get_vocabulary_size vocab = (stored_words vocab).toFinset.card := by
    rw [get_vocabulary_size_eq_length, List.toFinset_card_of_nodup hnd]
  refine ⟨hnd, hcard, ?_⟩
  intro toks ht
  have hset : (stored_words vocab).toFinset = toks.toFinset := by
    ext w
    simp only [List.mem_toFinset]
    exact mem_stored_words_of_trainedWith toks vocab ht w
  rw [hcard, hset]

/-- Witness of C17 at the two-email vocabulary, which holds the 13 distinct
tokens of its two training texts. -/
theorem stored_words_distinct_witness :
    Reachable vocab_two_emails ∧
    TrainedWith (tokens (bytes "win free money now click here urgent") ++
      tokens (bytes "meeting scheduled for tomorrow please attend")) vocab_two_emails ∧
    ((stored_words vocab_two_emails).Nodup ∧
      get_vocabulary_size vocab_two_emails = (stored_words vocab_two_emails).toFinset.card ∧
      ∀ toks : List (List Nat), TrainedWith toks vocab_two_emails →
        get_vocabulary_size vocab_two_emails = toks.toFinset.card) := by
  have ht : TrainedWith (tokens (bytes "win free money now click here urgent") ++
      tokens (bytes "meeting scheduled for tomorrow please attend")) vocab_two_emails := by
    have h1 := TrainedWith.train [] init_vocabulary vocab_spam_only _ true TrainedWith.init
      train_vocab_spam_only
    rw [List.nil_append] at h1
    exact TrainedWith.train _ vocab_spam_only vocab_two_emails _ false h1 train_vocab_two_emails
  exact ⟨reachable_of_trainedWith _ _ ht, ht,
    stored_words_distinct vocab_two_emails (reachable_of_trainedWith _ _ ht)⟩

/-! ## The built-in training set and the accuracy test -/

theorem train_classifier_text (vocab : Vocabulary) (email : List Nat) (is_spam : Bool)
    (h : fitsBuffers email) :
    train_classifier vocab email is_spam = some (train_text vocab email is_spam) :=
  train_classifier_eq vocab email is_spam h

theorem train_default_data_eq : train_default_data init_vocabulary = some vocab_default := by
  unfold train_default_data
  simp only [Option.bind_eq_bind]
  rw [train_classifier_text _ _ _ (by decide), Option.some_bind,
    train_classifier_text _ _ _ (by decide), Option.some_bind,
    train_classifier_text _ _ _ (by decide), Option.some_bind,
    train_classifier_text _ _ _ (by decide), Option.some_bind,
    train_classifier_text _ _ _ (by decide), Option.some_bind,
    train_classifier_text _ _ _ (by decide), Option.some_bind,
    train_classifier_text _ _ _ (by decide), Option.some_bind,
    train_classifier_text _ _ _ (by decide), Option.some_bind,
    train_classifier_text _ _ _ (by decide), Option.some_bind,
    train_classifier_text _ _ _ (by decide), Option.some_bind,
    train_classifier_text _ _ _ (by decide), Option.some_bind,
    train_classifier_text _ _ _ (by decide), Option.some_bind,
    train_classifier_text _ _ _ (by decide), Option.some_bind,
    train_classifier_text _ _ _ (by decide)]
  rfl

theorem trained_train_text (vocab : Vocabulary) (h : Trained vocab) (email : List Nat)
    (is_spam : Bool) (hfit : fitsBuffers email) : Trained (train_text vocab email is_spam) :=
  Trained.train vocab _ email is_spam h (train_classifier_text vocab email is_spam hfit)

theorem trained_foldl_train_text (is_spam : Bool) (emails : List (List Nat)) :
    ∀ vocab : Vocabulary, Trained vocab → (∀ e ∈ emails, fitsBuffers e) →
      Trained (emails.foldl (fun v e => train_text v e is_spam) vocab) := by
  induction emails with
  | nil => intro vocab h _; exact h
  | cons e es ih =>
    intro vocab h hfit
    exact ih _ (trained_train_text vocab h e is_spam (hfit e (List.mem_cons_self _ _)))
      (fun x hx => hfit x (List.mem_cons_of_mem _ hx))

theorem trained_vocab_default : Trained vocab_default :=
  trained_foldl_train_text false default_ham _
    (trained_foldl_train_text true default_spam _ Trained.init (by decide)) (by decide)

theorem scoringDefined_of_trained (vocab : Vocabulary) (h : Trained vocab)
    (hV : 0 < get_vocabulary_size vocab) (toks : List (List Nat)) :
    ScoringDefined vocab toks := by
  have hc := countsNonneg_of_trained vocab h
  have hV1 : (0 : Int) < (get_vocabulary_size vocab : Int) := by exact_mod_cast hV
  exact ⟨by have := hc.2.1; omega, by have := hc.2.2; omega,
    fun t _ => counts_of_nonneg vocab hc t⟩

theorem spam_score_eq_weight (vocab : Vocabulary) (toks : List (List Nat)) :
    spam_score vocab toks = prior_spam vocab *
      ((spam_weight vocab toks : ℝ) /
        ((vocab.total_spam_words : ℝ) + (get_vocabulary_size vocab : ℝ)) ^ toks.length) := by
  unfold spam_score spam_weight
  congr 1
  induction toks with
  | nil => simp
  | cons t ts ih =>
    simp only [List.map_cons, List.prod_cons, List.length_cons, ih, Int.cast_mul, Int.cast_add,
      Int.cast_one, pow_succ]
    rw [div_mul_div_comm]
    ring

theorem ham_score_eq_weight (vocab : Vocabulary) (toks : List (List Nat)) :
    ham_score vocab toks = prior_ham vocab *
      ((ham_weight vocab toks : ℝ) /
        ((vocab.total_ham_words : ℝ) + (get_vocabulary_size vocab : ℝ)) ^ toks.length) := by
  unfold ham_score ham_weight
  congr 1
  induction toks with
  | nil => simp
  | cons t ts ih =>
    simp only [List.map_cons, List.prod_cons, List.length_cons, ih, Int.cast_mul, Int.cast_add,
      Int.cast_one, pow_succ]
    rw [div_mul_div_comm]
    ring

/-- Comparison of the two weights through integers: the ham weight is below
the spam weight when the cross-multiplied integer products say so. -/
theorem ham_lt_spam_of_weights (vocab : Vocabulary) (toks : List (List Nat))
    (hs : 0 < vocab.total_spam_emails) (hh : 0 < vocab.total_ham_emails)
    (hds : 0 < vocab.total_spam_words + (get_vocabulary_size vocab : Int))
    (hdh : 0 < vocab.total_ham_words + (get_vocabulary_size vocab : Int))
    (h : vocab.total_ham_emails * ham_weight vocab toks *
        (vocab.total_spam_words + (get_vocabulary_size vocab : Int)) ^ toks.length <
      vocab.total_spam_emails * spam_weight vocab toks *
        (vocab.total_ham_words + (get_vocabulary_size vocab : Int)) ^ toks.length) :
    ham_score vocab toks < spam_score vocab toks := by
  have h1 : (0 : ℝ) < (vocab.total_spam_emails : ℝ) := by exact_mod_cast hs
  have h2 : (0 : ℝ) < (vocab.total_ham_emails : ℝ) := by exact_mod_cast hh
  have h3 : (0 : ℝ) < (vocab.total_spam_words : ℝ) + (get_vocabulary_size vocab : ℝ) := by
    exact_mod_cast hds
  have h4 : (0 : ℝ) < (vocab.total_ham_words : ℝ) + (get_vocabulary_size vocab : ℝ) := by
    exact_mod_cast hdh
  have hR : (vocab.total_ham_emails : ℝ) * (ham_weight vocab toks : ℝ) *
      ((vocab.total_spam_words : ℝ) + (get_vocabulary_size vocab : ℝ)) ^ toks.length <
      (vocab.total_spam_emails : ℝ) * (spam_weight vocab toks : ℝ) *
      ((vocab.total_ham_words : ℝ) + (get_vocabulary_size vocab : ℝ)) ^ toks.length := by
    exact_mod_cast h
  rw [spam_score_eq_weight, ham_score_eq_weight, prior_ham_eq vocab hs hh]
  unfold prior_spam
  rw [div_mul_div_comm, div_mul_div_comm, div_lt_div_iff₀ (by positivity) (by positivity)]
  have hsum : (0 : ℝ) < (vocab.total_spam_emails : ℝ) + (vocab.total_ham_emails : ℝ) := by
    positivity
  have := mul_lt_mul_of_pos_left hR hsum
  linarith

/-- Comparison of the two weights through integers, the other way round. -/
theorem spam_lt_ham_of_weights (vocab : Vocabulary) (toks : List (List Nat))
    (hs : 0 < vocab.total_spam_emails) (hh : 0 < vocab.total_ham_emails)
    (hds : 0 < vocab.total_spam_words + (get_vocabulary_size vocab : Int))
    (hdh : 0 < vocab.total_ham_words + (get_vocabulary_size vocab : Int))
    (h : vocab.total_spam_emails * spam_weight vocab toks *
        (vocab.total_ham_words + (get_vocabulary_size vocab : Int)) ^ toks.length <
      vocab.total_ham_emails * ham_weight vocab toks *
        (vocab.total_spam_words + (get_vocabulary_size vocab : Int)) ^ toks.length) :
    spam_score vocab toks < ham_score vocab toks := by
  have h1 : (0 : ℝ) < (vocab.total_spam_emails : ℝ) := by exact_mod_cast hs
  have h2 : (0 : ℝ) < (vocab.total_ham_emails : ℝ) := by exact_mod_cast hh
  have h3 : (0 : ℝ) < (vocab.total_spam_words : ℝ) + (get_vocabulary_size vocab : ℝ) := by
    exact_mod_cast hds
  have h4 : (0 : ℝ) < (vocab.total_ham_words : ℝ) + (get_vocabulary_size vocab : ℝ) := by
    exact_mod_cast hdh
  have hR : (vocab.total_spam_emails : ℝ) * (spam_weight vocab toks : ℝ) *
      ((vocab.total_ham_words : ℝ) + (get_vocabulary_size vocab : ℝ)) ^ toks.length <
      (vocab.total_ham_emails : ℝ) * (ham_weight vocab toks : ℝ) *
      ((vocab.total_spam_words : ℝ) + (get_vocabulary_size vocab : ℝ)) ^ toks.length := by
    exact_mod_cast h
  rw [spam_score_eq_weight, ham_score_eq_weight, prior_ham_eq vocab hs hh]
  unfold prior_spam
  rw [div_mul_div_comm, div_mul_div_comm, div_lt_div_iff₀ (by positivity) (by positivity)]
  have hsum : (0 : ℝ) < (vocab.total_spam_emails : ℝ) + (vocab.total_ham_emails : ℝ) := by
    positivity
  have := mul_lt_mul_of_pos_left hR hsum
  linarith

theorem default_totals :
    vocab_default.total_spam_emails = 7 ∧ vocab_default.total_ham_emails = 7 ∧
    vocab_default.total_spam_words = 42 ∧ vocab_default.total_ham_words = 41 ∧
    get_vocabulary_size vocab_default = 71 :=
  ⟨by decide, by decide, by decide, by decide, by decide⟩

/-- On the default vocabulary a text whose integer weights favour spam is
scored above 0.5. -/
theorem default_scores_spam (email : List Nat) (sw hw : Int) (n : Nat)
    (hfit : fitsBuffers email) (hn : (tokens email).length = n) (hpos : 0 < n)
    (hsw : spam_weight vocab_default (tokens email) = sw)
    (hhw : ham_weight vocab_default (tokens email) = hw)
    (h : 7 * hw * (42 + 71) ^ n < 7 * sw * (41 + 71) ^ n) :
    ∃ p : ℝ, calculate_probability vocab_default email = some p ∧ p > 0.5 := by
  obtain ⟨e1, e2, e3, e4, e5⟩ := default_totals
  have hs : 0 < vocab_default.total_spam_emails := by rw [e1]; decide
  have hh : 0 < vocab_default.total_ham_emails := by rw [e2]; decide
  have hdef := scoringDefined_of_trained vocab_default trained_vocab_default
    (by rw [e5]; decide) (tokens email)
  have hne : tokens email ≠ [] := by
    intro h0; rw [h0] at hn; simp at hn; omega
  refine ⟨_, calculate_probability_eq vocab_default email hs hh hfit hne hdef, ?_⟩
  apply bayes_posterior_gt_half _ _ (spam_score_pos _ _ hs hh hdef)
    (ham_score_pos _ _ hs hh hdef)
  apply ham_lt_spam_of_weights _ _ hs hh hdef.1 hdef.2.1
  rw [e1, e2, e3, e4, e5, hn, hsw, hhw]
  exact_mod_cast h

/-- On the default vocabulary a text whose integer weights favour ham is
scored below 0.5. -/
theorem default_scores_ham (email : List Nat) (sw hw : Int) (n : Nat)
    (hfit : fitsBuffers email) (hn : (tokens email).length = n) (hpos : 0 < n)
    (hsw : spam_weight vocab_default (tokens email) = sw)
    (hhw : ham_weight vocab_default (tokens email) = hw)
    (h : 7 * sw * (41 + 71) ^ n < 7 * hw * (42 + 71) ^ n) :
    ∃ p : ℝ, calculate_probability vocab_default email = some p ∧ p < 0.5 := by
  obtain ⟨e1, e2, e3, e4, e5⟩ := default_totals
  have hs : 0 < vocab_default.total_spam_emails := by rw [e1]; decide
  have hh : 0 < vocab_default.total_ham_emails := by rw [e2]; decide
  have hdef := scoringDefined_of_trained vocab_default trained_vocab_default
    (by rw [e5]; decide) (tokens email)
  have hne : tokens email ≠ [] := by
    intro h0; rw [h0] at hn; simp at hn; omega
  refine ⟨_, calculate_probability_eq vocab_default email hs hh hfit hne hdef, ?_⟩
  apply bayes_posterior_lt_half _ _ (spam_score_pos _ _ hs hh hdef)
    (ham_score_pos _ _ hs hh hdef)
  apply spam_lt_ham_of_weights _ _ hs hh hdef.1 hdef.2.1
  rw [e1, e2, e3, e4, e5, hn, hsw, hhw]
  exact_mod_cast h

/-- C19: `train_default_data` on the freshly initialised vocabulary returns a
vocabulary on which each of the eight cases of `test_accuracy` is predicted as
expected: the probability is above 0.5 exactly for the four emails expected
to be spam. -/
theorem default_accuracy_all_correct :
    ∃ v : Vocabulary, train_default_data init_vocabulary = some v ∧
      ∀ t ∈ test_cases, ∃ p : ℝ,
        calculate_probability v t.1 = some p ∧ (p > 0.5 ↔ t.2 = true) := by
  refine ⟨vocab_default, train_default_data_eq, ?_⟩
  have spam_case : ∀ email : List Nat,
      (∃ p : ℝ, calculate_probability vocab_default email = some p ∧ p > 0.5) →
      ∃ p : ℝ, calculate_probability vocab_default email = some p ∧ (p > 0.5 ↔ true = true) := by
    rintro email ⟨p, hp, hgt⟩
    exact ⟨p, hp, by simp [hgt]⟩
  have ham_case : ∀ email : List Nat,
      (∃ p : ℝ, calculate_probability vocab_default email = some p ∧ p < 0.5) →
      ∃ p : ℝ, calculate_probability vocab_default email = some p ∧ (p > 0.5 ↔ false = true) := by
    rintro email ⟨p, hp, hlt⟩
    refine ⟨p, hp, ?_⟩
    simp only [Bool.false_eq_true, iff_false, not_lt]
    exact le_of_lt hlt
  intro t ht
  simp only [test_cases, List.mem_cons, List.mem_singleton, List.not_mem_nil, or_false] at ht
  rcases ht with rfl | rfl | rfl | rfl | rfl | rfl | rfl | rfl
  · exact spam_case _ (default_scores_spam _ 288 1 6 (by decide) (by decide) (by decide)
      (by decide) (by decide) (by norm_num))
  · exact ham_case _ (default_scores_ham _ 1 4 4 (by decide) (by decide) (by decide)
      (by decide) (by decide) (by norm_num))
  · exact spam_case _ (default_scores_spam _ 24 1 4 (by decide) (by decide) (by decide)
      (by decide) (by decide) (by norm_num))
  · exact ham_case _ (default_scores_ham _ 1 8 5 (by decide) (by decide) (by decide)
      (by decide) (by decide) (by norm_num))
  · exact spam_case _ (default_scores_spam _ 12 1 4 (by decide) (by decide) (by decide)
      (by decide) (by decide) (by norm_num))
  · exact ham_case _ (default_scores_ham _ 1 8 4 (by decide) (by decide) (by decide)
      (by decide) (by decide) (by norm_num))
  · exact spam_case _ (default_scores_spam _ 216 1 5 (by decide) (by decide) (by decide)
      (by decide) (by decide) (by norm_num))
  · exact ham_case _ (default_scores_ham _ 1 16 4 (by decide) (by decide) (by decide)
      (by decide) (by decide) (by norm_num))

/-! ## The scorer reads totals, size and counts only -/

theorem word_likelihoods_counts (vocab : Vocabulary) (vocab_size : Nat) (t : List Nat) :
    word_likelihoods vocab vocab_size t =
      (fdiv (some ((spam_count_of vocab t : ℝ) + 1.0))
          (some (((vocab.total_spam_words + (vocab_size : Int) : Int) : ℝ))),
        fdiv (some ((ham_count_of vocab t : ℝ) + 1.0))
          (some (((vocab.total_ham_words + (vocab_size : Int) : Int) : ℝ)))) := by
  unfold word_likelihoods spam_count_of ham_count_of
  cases find_node vocab t with
  | none => simp only [Int.cast_zero, zero_add]
  | some n => rfl

theorem word_likelihoods_congr (v1 v2 : Vocabulary) (h : SameModel v1 v2) (vocab_size : Nat)
    (t : List Nat) : word_likelihoods v1 vocab_size t = word_likelihoods v2 vocab_size t := by
  obtain ⟨_, _, h3, h4, _, hc⟩ := h
  rw [word_likelihoods_counts, word_likelihoods_counts, h3, h4, (hc t).1, (hc t).2]

theorem score_loop_congr (v1 v2 : Vocabulary) (h : SameModel v1 v2) (vocab_size : Nat)
    (ws : List (List Nat)) :
    ∀ st : ScoreState, score_loop v1 vocab_size st ws = score_loop v2 vocab_size st ws := by
  induction ws with
  | nil => intro st; rfl
  | cons w ws ih =>
    intro st
    have hw : score_word v1 vocab_size st w = score_word v2 vocab_size st w := by
      unfold score_word score_token
      simp only [word_likelihoods_congr v1 v2 h]
    unfold score_loop
    rw [hw]
    cases score_word v2 vocab_size st w with
    | none => rfl
    | some st1 => exact ih st1

/-- Vocabularies with the same totals, size and per-token counts are scored
alike on every text. -/
theorem calculate_probability_congr (v1 v2 : Vocabulary) (h : SameModel v1 v2)
    (email : List Nat) : calculate_probability v1 email = calculate_probability v2 email := by
  have hloop := score_loop_congr v1 v2 h
  obtain ⟨h1, h2, _, _, h5, _⟩ := h
  unfold calculate_probability
  simp only [h1, h2, h5, hloop]

/-! ## Training order -/

theorem count_of_train_tokens_other (is_spam : Bool) (t : List Nat) (toks : List (List Nat)) :
    ∀ vocab : Vocabulary, count_of (!is_spam) (train_tokens vocab is_spam toks) t =
      count_of (!is_spam) vocab t := by
  induction toks with
  | nil => intro vocab; rfl
  | cons w ws ih =>
    intro vocab
    have := ih (train_token vocab is_spam w)
    simp only [train_tokens, List.foldl_cons] at this ⊢
    rw [this, count_of_train_token_other]

theorem words_of_train_tokens_other (is_spam : Bool) (toks : List (List Nat)) :
    ∀ vocab : Vocabulary, words_of (!is_spam) (train_tokens vocab is_spam toks) =
      words_of (!is_spam) vocab := by
  induction toks with
  | nil => intro vocab; rfl
  | cons w ws ih =>
    intro vocab
    have := ih (train_token vocab is_spam w)
    simp only [train_tokens, List.foldl_cons] at this ⊢
    rw [this]
    cases is_spam <;> simp [words_of, train_token]

/-- The count of a token for any label after a training call within the
buffer limits. -/
theorem count_of_train_text (l is_spam : Bool) (vocab : Vocabulary) (email t : List Nat) :
    count_of l (train_text vocab email is_spam) t =
      count_of l vocab t + (if l = is_spam then ((tokens email).count t : Int) else 0) := by
  unfold train_text
  rw [count_of_count_email]
  by_cases h : l = is_spam
  · subst h
    rw [count_of_train_tokens, if_pos rfl]
  · have e : l = !is_spam := by cases l <;> cases is_spam <;> simp_all
    rw [if_neg h, e, count_of_train_tokens_other, add_zero]

/-- The word total of any label after a training call within the buffer
limits. -/
theorem words_of_train_text (l is_spam : Bool) (vocab : Vocabulary) (email : List Nat) :
    words_of l (train_text vocab email is_spam) =
      words_of l vocab + (if l = is_spam then ((tokens email).length : Int) else 0) := by
  unfold train_text
  rw [words_of_count_email]
  by_cases h : l = is_spam
  · subst h
    rw [words_of_train_tokens, if_pos rfl]
  · have e : l = !is_spam := by cases l <;> cases is_spam <;> simp_all
    rw [if_neg h, e, words_of_train_tokens_other, add_zero]

/-- The email count of any label after a training call within the buffer
limits. -/
theorem emails_of_train_text (l is_spam : Bool) (vocab : Vocabulary) (email : List Nat) :
    emails_of l (train_text vocab email is_spam) =
      emails_of l vocab + (if l = is_spam then 1 else 0) := by
  have h := emails_of_train_tokens l is_spam (tokens email) vocab
  unfold train_text
  cases l <;> cases is_spam <;> simp [emails_of, count_email] at h ⊢ <;> omega

theorem sum_length_setBucket (t : Nat → List HashNode) (i : Nat) (c : List HashNode)
    (n : Nat) :
    ((List.range n).map (fun j => (setBucket t i c j).length)).sum +
        (if i < n then (t i).length else 0) =
      ((List.range n).map (fun j => (t j).length)).sum + (if i < n then c.length else 0) := by
  induction n with
  | zero => simp
  | succ n ih =>
    rw [List.range_succ, List.map_append, List.map_append, List.sum_append, List.sum_append]
    simp only [List.map_cons, List.map_nil, List.sum_cons, List.sum_nil, Nat.add_zero]
    by_cases h1 : i < n
    · have h2 : i < n + 1 := by omega
      have hlast : (setBucket t i c n).length = (t n).length := by
        have h3 : n ≠ i := by omega
        simp [setBucket, h3]
      rw [if_pos h1, if_pos h1] at ih
      rw [if_pos h2, if_pos h2, hlast]
      omega
    · by_cases h2 : i = n
      · subst h2
        have hlast : (setBucket t i c i).length = c.length := by simp [setBucket]
        rw [if_neg h1, if_neg h1] at ih
        rw [if_pos (Nat.lt_succ_self i), if_pos (Nat.lt_succ_self i), hlast]
        omega
      · have h3 : ¬ i < n + 1 := by omega
        have hlast : (setBucket t i c n).length = (t n).length := by
          have h4 : n ≠ i := fun e => h2 e.symm
          simp [setBucket, h4]
        rw [if_neg h1, if_neg h1] at ih
        rw [if_neg h3, if_neg h3, hlast]
        omega

theorem length_train_chain (is_spam : Bool) (w : List Nat) (chain : List HashNode) :
    (train_chain is_spam w chain).length =
      chain.length + (if w ∈ chain.map HashNode.word then 0 else 1) := by
  have h := congrArg List.length (map_word_train_chain is_spam w chain)
  rw [List.length_map] at h
  rw [h]
  split <;> simp

/-- One token adds a node exactly when the chain search does not find it. -/
theorem get_vocabulary_size_train_token (vocab : Vocabulary) (is_spam : Bool) (w : List Nat) :
    get_vocabulary_size (train_token vocab is_spam w) =
      get_vocabulary_size vocab + (if HasWord vocab w then 0 else 1) := by
  have h := sum_length_setBucket vocab.table (hash w)
    (train_chain is_spam w (vocab.table (hash w))) TABLE_SIZE
  simp only [hash_lt, if_true, length_train_chain] at h
  unfold get_vocabulary_size train_token HasWord
  simp only []
  omega

theorem hasWord_train_token (vocab : Vocabulary) (is_spam : Bool) (t w : List Nat) :
    HasWord (train_token vocab is_spam t) w ↔ HasWord vocab w ∨ w = t := by
  unfold HasWord
  simp only [train_token, setBucket]
  by_cases e : hash w = hash t
  · rw [if_pos e, map_word_train_chain, e]
    by_cases hm : t ∈ (vocab.table (hash t)).map HashNode.word
    · rw [if_pos hm]
      constructor
      · exact Or.inl
      · rintro (h | rfl)
        · exact h
        · exact hm
    · rw [if_neg hm, List.mem_append, List.mem_singleton]
  · rw [if_neg e]
    constructor
    · exact Or.inl
    · rintro (h | rfl)
      · exact h
      · exact absurd rfl e

theorem hasWord_train_tokens (is_spam : Bool) (toks : List (List Nat)) (w : List Nat) :
    ∀ vocab : Vocabulary, HasWord (train_tokens vocab is_spam toks) w ↔
      HasWord vocab w ∨ w ∈ toks := by
  induction toks with
  | nil => intro vocab; simp [train_tokens]
  | cons t ts ih =>
    intro vocab
    have := ih (train_token vocab is_spam t)
    simp only [train_tokens, List.foldl_cons] at this ⊢
    rw [this, hasWord_train_token, List.mem_cons]
    exact or_assoc

theorem new_words_train_token (vocab : Vocabulary) (is_spam : Bool) (t : List Nat)
    (ts : List (List Nat)) :
    new_words (train_token vocab is_spam t) ts = (new_words vocab ts).erase t := by
  ext w
  simp only [new_words, Finset.mem_filter, List.mem_toFinset, Finset.mem_erase,
    hasWord_train_token, not_or]
  constructor
  · rintro ⟨h1, h2, h3⟩
    exact ⟨h3, h1, h2⟩
  · rintro ⟨h3, h1, h2⟩
    exact ⟨h1, h2, h3⟩

theorem card_new_words_cons (vocab : Vocabulary) (t : List Nat) (ts : List (List Nat)) :
    (new_words vocab (t :: ts)).card =
      (if HasWord vocab t then 0 else 1) + ((new_words vocab ts).erase t).card := by
  have hcons : new_words vocab (t :: ts) =
      (insert t ts.toFinset).filter (fun w => ¬ HasWord vocab w) := by
    unfold new_words
    rw [List.toFinset_cons]
  rw [hcons, Finset.filter_insert]
  by_cases h : HasWord vocab t
  · have hnot : t ∉ new_words vocab ts := by
      intro hm
      exact (Finset.mem_filter.mp hm).2 h
    rw [if_neg (not_not.mpr h), if_pos h, Finset.erase_eq_of_not_mem hnot, Nat.zero_add]
    rfl
  · rw [if_pos h, if_neg h]
    change (insert t (new_words vocab ts)).card = 1 + ((new_words vocab ts).erase t).card
    by_cases hm : t ∈ new_words vocab ts
    · rw [Finset.card_insert_of_mem hm]
      have := Finset.card_erase_add_one hm
      omega
    · rw [Finset.card_insert_of_not_mem hm, Finset.erase_eq_of_not_mem hm]
      omega

/-- A training loop adds one node for each distinct token the chain search
did not find before. -/
theorem get_vocabulary_size_train_tokens (is_spam : Bool) (toks : List (List Nat)) :
    ∀ vocab : Vocabulary, get_vocabulary_size (train_tokens vocab is_spam toks) =
      get_vocabulary_size vocab + (new_words vocab toks).card := by
  induction toks with
  | nil => intro vocab; simp [train_tokens, new_words]
  | cons t ts ih =>
    intro vocab
    have := ih (train_token vocab is_spam t)
    simp only [train_tokens, List.foldl_cons] at this ⊢
    rw [this, get_vocabulary_size_train_token, new_words_train_token, card_new_words_cons]
    omega

theorem card_new_words_append (vocab : Vocabulary) (ta tb : List (List Nat)) :
    (new_words vocab ta).card +
        (tb.toFinset.filter (fun w => ¬ (HasWord vocab w ∨ w ∈ ta))).card =
      (new_words vocab (ta ++ tb)).card := by
  rw [← Finset.card_union_of_disjoint]
  · congr 1
    ext w
    simp only [new_words, Finset.mem_union, Finset.mem_filter, List.mem_toFinset,
      List.mem_append, not_or]
    constructor
    · rintro (⟨h1, h2⟩ | ⟨h1, h2, _⟩)
      · exact ⟨Or.inl h1, h2⟩
      · exact ⟨Or.inr h1, h2⟩
    · rintro ⟨h1 | h1, h2⟩
      · exact Or.inl ⟨h1, h2⟩
      · by_cases ha : w ∈ ta
        · exact Or.inl ⟨ha, h2⟩
        · exact Or.inr ⟨h1, h2, ha⟩
  · rw [Finset.disjoint_left]
    intro w h1 h2
    simp only [new_words, Finset.mem_filter, List.mem_toFinset, not_or] at h1 h2
    exact h2.2.2 h1.1

theorem get_vocabulary_size_train_text (vocab : Vocabulary) (email : List Nat)
    (is_spam : Bool) :
    get_vocabulary_size (train_text vocab email is_spam) =
      get_vocabulary_size vocab + (new_words vocab (tokens email)).card := by
  unfold train_text
  rw [← get_vocabulary_size_train_tokens is_spam]
  cases is_spam <;> rfl

theorem hasWord_train_text (vocab : Vocabulary) (email : List Nat) (is_spam : Bool)
    (w : List Nat) :
    HasWord (train_text vocab email is_spam) w ↔ HasWord vocab w ∨ w ∈ tokens email := by
  rw [← hasWord_train_tokens is_spam]
  unfold train_text
  cases is_spam <;> rfl

/-- The number of nodes after two training calls does not depend on their
labels: it has grown by the number of distinct tokens of the two texts that
the chain search did not find before. -/
theorem get_vocabulary_size_train_two (vocab : Vocabulary) (a b : List Nat) (la lb : Bool) :
    get_vocabulary_size (train_text (train_text vocab a la) b lb) =
      get_vocabulary_size vocab + (new_words vocab (tokens a ++ tokens b)).card := by
  rw [get_vocabulary_size_train_text, get_vocabulary_size_train_text,
    ← card_new_words_append, Nat.add_assoc]
  congr 2
  unfold new_words
  congr 1
  ext w
  simp only [Finset.mem_filter, List.mem_toFinset, hasWord_train_text]

theorem new_words_append_comm (vocab : Vocabulary) (ta tb : List (List Nat)) :
    new_words vocab (ta ++ tb) = new_words vocab (tb ++ ta) := by
  unfold new_words
  congr 1
  ext w
  simp only [List.mem_toFinset, List.mem_append]
  exact or_comm

theorem mem_stored_words_train_text (vocab : Vocabulary) (email : List Nat) (is_spam : Bool)
    (w : List Nat) :
    w ∈ stored_words (train_text vocab email is_spam) ↔
      w ∈ stored_words vocab ∨ w ∈ tokens email := by
  unfold train_text
  rw [stored_words_count_email, mem_stored_words_train_tokens]

/-- Two training calls in either order give vocabularies the scorer cannot
tell apart. -/
theorem sameModel_train_swap (vocab : Vocabulary) (a b : List Nat) (la lb : Bool) :
    SameModel (train_text (train_text vocab a la) b lb)
      (train_text (train_text vocab b lb) a la) := by
  have he : ∀ l : Bool, emails_of l (train_text (train_text vocab a la) b lb) =
      emails_of l (train_text (train_text vocab b lb) a la) := by
    intro l
    simp only [emails_of_train_text]
    omega
  have hw : ∀ l : Bool, words_of l (train_text (train_text vocab a la) b lb) =
      words_of l (train_text (train_text vocab b lb) a la) := by
    intro l
    simp only [words_of_train_text]
    omega
  have hc : ∀ (l : Bool) (t : List Nat),
      count_of l (train_text (train_text vocab a la) b lb) t =
        count_of l (train_text (train_text vocab b lb) a la) t := by
    intro l t
    simp only [count_of_train_text]
    omega
  refine ⟨he true, he false, hw true, hw false, ?_, fun t => ⟨hc true t, hc false t⟩⟩
  rw [get_vocabulary_size_train_two, get_vocabulary_size_train_two, new_words_append_comm]

/-- C21: for texts within the buffer limits, training `a` then `b` and
training `b` then `a` both return, and the two vocabularies have the same four
totals, the same stored words, the same counts for every token and the same
number of nodes, so that `calculate_probability` returns the same on every
text for both. -/
theorem training_order_irrelevant (vocab : Vocabulary) (a b : List Nat) (la lb : Bool)
    (ha : fitsBuffers a) (hb : fitsBuffers b) :
    ∃ va vab vb vba : Vocabulary,
      train_classifier vocab a la = some va ∧ train_classifier va b lb = some vab ∧
      train_classifier vocab b lb = some vb ∧ train_classifier vb a la = some vba ∧
      vab.total_spam_emails = vba.total_spam_emails ∧
      vab.total_ham_emails = vba.total_ham_emails ∧
      vab.total_spam_words = vba.total_spam_words ∧
      vab.total_ham_words = vba.total_ham_words ∧
      (∀ w : List Nat, w ∈ stored_words vab ↔ w ∈ stored_words vba) ∧
      (∀ t : List Nat, spam_count_of vab t = spam_count_of vba t ∧
        ham_count_of vab t = ham_count_of vba t) ∧
      get_vocabulary_size vab = get_vocabulary_size vba ∧
      ∀ email : List Nat,
        calculate_probability vab email = calculate_probability vba email := by
  have hm := sameModel_train_swap vocab a b la lb
  refine ⟨train_text vocab a la, train_text (train_text vocab a la) b lb,
    train_text vocab b lb, train_text (train_text vocab b lb) a la,
    train_classifier_text vocab a la ha, train_classifier_text _ b lb hb,
    train_classifier_text vocab b lb hb, train_classifier_text _ a la ha,
    hm.1, hm.2.1, hm.2.2.1, hm.2.2.2.1, ?_, hm.2.2.2.2.2, hm.2.2.2.2.1,
    calculate_probability_congr _ _ hm⟩
  intro w
  simp only [mem_stored_words_train_text]
  constructor
  · rintro ((h | h) | h)
    · exact Or.inl (Or.inl h)
    · exact Or.inr h
    · exact Or.inl (Or.inr h)
  · rintro ((h | h) | h)
    · exact Or.inl (Or.inl h)
    · exact Or.inr h
    · exact Or.inl (Or.inr h)

/-- Witness of C21 at the spam-only vocabulary with the ham text
`"free meeting"` and the spam text `"meeting money now"`. -/
theorem training_order_irrelevant_witness :
    fitsBuffers (bytes "free meeting") ∧ fitsBuffers (bytes "meeting money now") ∧
    ∃ va vab vb vba : Vocabulary,
      train_classifier vocab_spam_only (bytes "free meeting") false = some va ∧
      train_classifier va (bytes "meeting money now") true = some vab ∧
      train_classifier vocab_spam_only (bytes "meeting money now") true = some vb ∧
      train_classifier vb (bytes "free meeting") false = some vba ∧
      vab.total_spam_emails = vba.total_spam_emails ∧
      vab.total_ham_emails = vba.total_ham_emails ∧
      vab.total_spam_words = vba.total_spam_words ∧
      vab.total_ham_words = vba.total_ham_words ∧
      (∀ w : List Nat, w ∈ stored_words vab ↔ w ∈ stored_words vba) ∧
      (∀ t : List Nat, spam_count_of vab t = spam_count_of vba t ∧
        ham_count_of vab t = ham_count_of vba t) ∧
      get_vocabulary_size vab = get_vocabulary_size vba ∧
      ∀ email : List Nat,
        calculate_probability vab email = calculate_probability vba email :=
  ⟨by decide, by decide,
    training_order_irrelevant vocab_spam_only (bytes "free meeting")
      (bytes "meeting money now") false true (by decide) (by decide)⟩

end SpamClassifier
